import Mathlib

/-!
Verification development for the Mython interpreter
(files `mython/lexer.h`, `mython/lexer.cpp`, `mython/runtime.cpp`,
`mython/statement.cpp`).

The development has two parts:

* a model of the lexer (`LineOfCode::ReadLine` and `Lexer::ParseLine`),
  operating on the input character stream as a `List Char`
  (end-of-stream = end of list);
* a model of the runtime and of the AST evaluators, as a fuel-indexed
  interpreter over an explicit instance heap (shared, mutable
  `ClassInstance` objects are heap cells addressed by `Nat`; an
  `ObjectHolder` is `Option Value`, the empty holder being `none`).

C++ exceptions (`LexerError`, `runtime_error`, `ExeptionWithObject`) are
modelled with `Except`; a dereference of a null pointer (obtained from a
failed `TryAs` downcast) is undefined behaviour in the source and is
modelled by the distinguished outcome `Interrupt.crash`, which no handler
catches.
-/

namespace Mython

/-! ## Token model (`lexer.h`, namespace `parse::token_type`) -/

/-- The token variant of `parse::Token` (`lexer.h`).  Keyword tokens get a
`kw` name prefix where the C++ name is a Lean keyword. -/
inductive Tok where
  | number (value : Nat)
  | id (value : String)
  | char (value : Char)
  | str (value : String)
  | kwClass
  | kwReturn
  | kwIf
  | kwElse
  | kwDef
  | newline
  | print
  | indent
  | dedent
  | kwAnd
  | kwOr
  | kwNot
  | eq
  | notEq
  | lessOrEq
  | greaterOrEq
  | kwNone
  | kwTrue
  | kwFalse
  | eof
deriving DecidableEq, Repr

/-- The lexical errors thrown by `lexer.cpp` (class `LexerError`), one
constructor per distinct diagnostic message. -/
inductive LexErr where
  /-- Message "String parsing error" -/
  | stringParse
  /-- Message "Unrecognized escape sequence \\…" -/
  | unrecognizedEscape (c : Char)
  /-- Message "Unexpected end of line" -/
  | unexpectedEndOfLine
  /-- Message "Incorrect indent." -/
  | incorrectIndent
deriving DecidableEq, Repr

/-! ## Line tokenizer (`LineOfCode`, `lexer.cpp`) -/

/-- The escape sequences accepted inside a string literal
(`LineOfCode::ReadString`); any other escape is a lexical error. -/
def escChar : Char → Option Char
  | 'n' => some '\n'
  | 't' => some '\t'
  | 'r' => some '\r'
  | '"' => some '"'
  | '\'' => some '\''
  | '\\' => some '\\'
  | _ => none

/-- Continuation characters of an identifier
(`LineOfCode::ReadIdentifier`): `isalpha(ch) || ch == '_' || isdigit(ch)`. -/
def isIdentChar (c : Char) : Bool :=
  c.isAlpha || c == '_' || c.isDigit

/-- Keyword recognition of `LineOfCode::ReadIdentifier`: a scanned word is
either one of the twelve keywords or an `Id` token. -/
def kwOrId (s : String) : Tok :=
  if s = "class" then .kwClass
  else if s = "return" then .kwReturn
  else if s = "if" then .kwIf
  else if s = "else" then .kwElse
  else if s = "def" then .kwDef
  else if s = "print" then .print
  else if s = "and" then .kwAnd
  else if s = "or" then .kwOr
  else if s = "not" then .kwNot
  else if s = "None" then .kwNone
  else if s = "True" then .kwTrue
  else if s = "False" then .kwFalse
  else .id s

/-- Model of `LineOfCode::ReadCompSymb`: the two-character comparison tokens.  The
caller guarantees `c` is one of `! = < >`; the final branch corresponds to
the C++ `else if (c == '>')`. -/
def compTok (c : Char) : Tok :=
  if c = '!' then .notEq
  else if c = '=' then .eq
  else if c = '<' then .lessOrEq
  else .greaterOrEq

/-- Value of a digit string, as computed by `stoi` in
`LineOfCode::ReadNumber` (the scanned characters are decimal digits). -/
def digitsToNat (ds : List Char) : Nat :=
  ds.foldl (fun n c => 10 * n + (c.toNat - '0'.toNat)) 0

/-- Model of `LineOfCode::IsEmpty`: the line's tokens are empty or all `Newline`. -/
def isEmptyLine (toks : List Tok) : Bool :=
  toks.isEmpty || toks.all (· == Tok.newline)

/-- Model of `LineOfCode::IsAllEof`: the line's tokens are empty or all `Eof`. -/
def isAllEof (toks : List Tok) : Bool :=
  toks.isEmpty || toks.all (· == Tok.eof)

/-- Model of `line_tokens_.back().Is<token_type::Newline>()` (guarded in the source
by `!IsEmpty()`, so the list is nonempty whenever this is consulted). -/
def lastIsNewline (toks : List Tok) : Bool :=
  match toks.getLast? with
  | some t => t == Tok.newline
  | none => false

/-- Body of `LineOfCode::ReadString` after the opening quote `q` has been
consumed: scan up to the matching quote, decoding escapes; a raw newline
or carriage return, an unknown escape, or end of stream is a lexical
error.  Returns the decoded characters and the characters after the
closing quote. -/
def stringBody : List Char → Char → Except LexErr (List Char × List Char)
  | [], _ => .error .stringParse
  | c :: rest, q =>
    if c = q then .ok ([], rest)
    else if c = '\\' then
      match rest with
      | [] => .error .stringParse
      | e :: rest2 =>
        match escChar e with
        | some ce =>
          match stringBody rest2 q with
          | .ok (s, r) => .ok (ce :: s, r)
          | .error err => .error err
        | none => .error (.unrecognizedEscape e)
    else if c = '\n' ∨ c = '\r' then .error .unexpectedEndOfLine
    else
      match stringBody rest q with
      | .ok (s, r) => .ok (c :: s, r)
      | .error err => .error err

theorem stringBody_nil (q : Char) :
    stringBody [] q = .error .stringParse := rfl

theorem stringBody_cons (c : Char) (rest : List Char) (q : Char) :
    stringBody (c :: rest) q =
      (if c = q then .ok ([], rest)
       else if c = '\\' then
         match rest with
         | [] => .error .stringParse
         | e :: rest2 =>
           match escChar e with
           | some ce =>
             match stringBody rest2 q with
             | .ok (s, r) => .ok (ce :: s, r)
             | .error err => .error err
           | none => .error (.unrecognizedEscape e)
       else if c = '\n' ∨ c = '\r' then .error .unexpectedEndOfLine
       else
         match stringBody rest q with
         | .ok (s, r) => .ok (c :: s, r)
         | .error err => .error err) := by
  rw [stringBody.eq_def]

theorem stringBody_rest_suffix_aux :
    ∀ (n : Nat) (l : List Char), l.length ≤ n → ∀ (q : Char) (s r : List Char),
      stringBody l q = .ok (s, r) → r <:+ l := by
  intro n
  induction n with
  | zero =>
    intro l hl q s r h
    have hnil : l = [] := List.eq_nil_of_length_eq_zero (Nat.le_zero.mp hl)
    subst hnil
    simp [stringBody_nil] at h
  | succ n ih =>
    intro l hl q s r h
    cases l with
    | nil => simp [stringBody_nil] at h
    | cons c rest =>
      rw [stringBody_cons] at h
      by_cases hq : c = q
      · rw [if_pos hq] at h
        cases h
        exact List.suffix_cons _ _
      · rw [if_neg hq] at h
        by_cases hb : c = '\\'
        · rw [if_pos hb] at h
          cases rest with
          | nil => simp at h
          | cons e rest2 =>
            cases hesc : escChar e with
            | none => simp [hesc] at h
            | some ce =>
              simp only [hesc] at h
              cases hrec : stringBody rest2 q with
              | error e2 => simp [hrec] at h
              | ok p =>
                obtain ⟨s0, r0⟩ := p
                simp only [hrec] at h
                cases h
                have hlen : rest2.length ≤ n := by
                  simp only [List.length_cons] at hl; omega
                exact ((ih rest2 hlen q _ _ hrec).trans
                  (List.suffix_cons e rest2)).trans
                  (List.suffix_cons c (e :: rest2))
        · rw [if_neg hb] at h
          by_cases heol : c = '\n' ∨ c = '\r'
          · rw [if_pos heol] at h
            exact absurd h (by simp)
          · rw [if_neg heol] at h
            cases hrec : stringBody rest q with
            | error e2 => simp [hrec] at h
            | ok p =>
              obtain ⟨s0, r0⟩ := p
              simp only [hrec] at h
              cases h
              have hlen : rest.length ≤ n := by
                simp only [List.length_cons] at hl; omega
              exact (ih rest hlen q _ _ hrec).trans (List.suffix_cons c rest)

theorem stringBody_rest_suffix (l : List Char) (q : Char) (s r : List Char)
    (h : stringBody l q = .ok (s, r)) : r <:+ l :=
  stringBody_rest_suffix_aux l.length l (Nat.le_refl _) q s r h

theorem stringBody_rest_length {l : List Char} {q : Char} {s r : List Char}
    (h : stringBody l q = .ok (s, r)) : r.length ≤ l.length :=
  (stringBody_rest_suffix l q s r h).length_le

/-- The scanning loop of `LineOfCode::ReadLine` (`lexer.cpp`), starting
after the leading spaces have been counted.  `acc` is the token vector
built so far (`line_tokens_`).  Branches, in source order: in-line spaces
are skipped; `#` starts a comment running up to (not including) the next
newline; at end of stream a final `Newline` is synthesized when the line
is nonempty and does not already end in one, then `Eof` is appended;
quotes start a string literal; digits a number; letters and `_` an
identifier or keyword; `! = < >` followed by `=` a comparison token; a
newline ends the line; any other character becomes a `Char` token. -/
def readLineLoop : List Char → List Tok → Except LexErr (List Tok × List Char)
  | [], acc =>
    .ok ((if !(isEmptyLine acc) && !(lastIsNewline acc)
            then acc ++ [Tok.newline] else acc) ++ [Tok.eof], [])
  | c :: cs, acc =>
    if c = ' ' then
      readLineLoop (cs.dropWhile (· == ' ')) acc
    else if c = '#' then
      readLineLoop (cs.dropWhile (· != '\n')) acc
    else if c = '"' ∨ c = '\'' then
      match hs : stringBody cs c with
      | .error e => .error e
      | .ok (s, r) => readLineLoop r (acc ++ [Tok.str (String.mk s)])
    else if c.isDigit then
      readLineLoop (cs.dropWhile Char.isDigit)
        (acc ++ [Tok.number (digitsToNat (c :: cs.takeWhile Char.isDigit))])
    else if c.isAlpha ∨ c = '_' then
      readLineLoop (cs.dropWhile isIdentChar)
        (acc ++ [kwOrId (String.mk (c :: cs.takeWhile isIdentChar))])
    else if (c = '!' ∨ c = '=' ∨ c = '<' ∨ c = '>') ∧ cs.head? = some '=' then
      readLineLoop cs.tail (acc ++ [compTok c])
    else if c = '\n' then
      .ok (acc ++ [Tok.newline], cs)
    else
      readLineLoop cs (acc ++ [Tok.char c])
termination_by l _ => l.length
decreasing_by
  · exact Nat.lt_succ_of_le (List.dropWhile_suffix _).length_le
  · exact Nat.lt_succ_of_le (List.dropWhile_suffix _).length_le
  · exact Nat.lt_succ_of_le (stringBody_rest_length hs)
  · exact Nat.lt_succ_of_le (List.dropWhile_suffix _).length_le
  · exact Nat.lt_succ_of_le (List.dropWhile_suffix _).length_le
  · exact Nat.lt_succ_of_le (List.length_tail _ ▸ Nat.sub_le _ _)
  · exact Nat.lt_succ_self _

/-- Model of `LineOfCode::ReadLine` for one line: skip leading newlines
(`SkipNewLinesOnly`), count the leading spaces (`ProcessSpaces`), then run
the scanning loop.  Returns the leading-space count, the line's tokens and
the unconsumed remainder of the stream. -/
def readLine (input : List Char) :
    Except LexErr (Nat × List Tok × List Char) :=
  let afterNl := input.dropWhile (· == '\n')
  let spaces := (afterNl.takeWhile (· == ' ')).length
  match readLineLoop (afterNl.dropWhile (· == ' ')) [] with
  | .error e => .error e
  | .ok (toks, rest) => .ok (spaces, toks, rest)


theorem mem_dropWhile_of_neg {α : Type} {p : α → Bool} {a : α} :
    ∀ {l : List α}, a ∈ l → p a = false → a ∈ l.dropWhile p := by
  intro l
  induction l with
  | nil => intro h _; cases h
  | cons b t ih =>
    intro h hp
    rw [List.dropWhile_cons]
    by_cases hb : p b = true
    · rw [if_pos hb]
      cases List.mem_cons.mp h with
      | inl hab => subst hab; rw [hp] at hb; cases hb
      | inr ht => exact ih ht hp
    · rw [if_neg hb]
      exact h

theorem stringBody_mem_newline_aux :
    ∀ (n : Nat) (l : List Char), l.length ≤ n → ∀ (q : Char) (s r : List Char),
      q ≠ '\n' → stringBody l q = .ok (s, r) → '\n' ∈ l → '\n' ∈ r := by
  intro n
  induction n with
  | zero =>
    intro l hl q s r _ h _
    have hnil : l = [] := List.eq_nil_of_length_eq_zero (Nat.le_zero.mp hl)
    subst hnil
    simp [stringBody_nil] at h
  | succ n ih =>
    intro l hl q s r hq h hmem
    cases l with
    | nil => simp [stringBody_nil] at h
    | cons c rest =>
      rw [stringBody_cons] at h
      by_cases hcq : c = q
      · rw [if_pos hcq] at h
        cases h
        cases List.mem_cons.mp hmem with
        | inl hc => exact absurd (hcq.symm.trans hc.symm) hq
        | inr hr => exact hr
      · rw [if_neg hcq] at h
        by_cases hb : c = '\\'
        · rw [if_pos hb] at h
          cases rest with
          | nil => simp at h
          | cons e rest2 =>
            cases hesc : escChar e with
            | none => simp [hesc] at h
            | some ce =>
              simp only [hesc] at h
              cases hrec : stringBody rest2 q with
              | error e2 => simp [hrec] at h
              | ok p =>
                obtain ⟨s0, r0⟩ := p
                simp only [hrec] at h
                cases h
                have hlen : rest2.length ≤ n := by
                  simp only [List.length_cons] at hl; omega
                have hmem2 : '\n' ∈ rest2 := by
                  cases List.mem_cons.mp hmem with
                  | inl hc => exact absurd hc.symm (by rw [hb]; decide)
                  | inr hr =>
                    cases List.mem_cons.mp hr with
                    | inl he =>
                      exfalso
                      rw [← he] at hesc
                      simp [escChar] at hesc
                    | inr hr2 => exact hr2
                exact ih rest2 hlen q _ _ hq hrec hmem2
        · rw [if_neg hb] at h
          by_cases heol : c = '\n' ∨ c = '\r'
          · rw [if_pos heol] at h
            exact absurd h (by simp)
          · rw [if_neg heol] at h
            cases hrec : stringBody rest q with
            | error e2 => simp [hrec] at h
            | ok p =>
              obtain ⟨s0, r0⟩ := p
              simp only [hrec] at h
              cases h
              have hlen : rest.length ≤ n := by
                simp only [List.length_cons] at hl; omega
              have hmem2 : '\n' ∈ rest := by
                cases List.mem_cons.mp hmem with
                | inl hc => exact absurd (Or.inl hc.symm) heol
                | inr hr => exact hr
              exact ih rest hlen q _ _ hq hrec hmem2

theorem stringBody_mem_newline {l : List Char} {q : Char} {s r : List Char}
    (hq : q ≠ '\n') (h : stringBody l q = .ok (s, r)) (hm : '\n' ∈ l) :
    '\n' ∈ r :=
  stringBody_mem_newline_aux l.length l (Nat.le_refl _) q s r hq h hm

set_option maxHeartbeats 2000000 in
theorem kwOrId_ne (s : String) :
    kwOrId s ≠ Tok.indent ∧ kwOrId s ≠ Tok.dedent ∧ kwOrId s ≠ Tok.eof := by
  unfold kwOrId
  split_ifs <;> exact ⟨by simp, by simp, by simp⟩

theorem compTok_ne (c : Char) :
    compTok c ≠ Tok.indent ∧ compTok c ≠ Tok.dedent ∧ compTok c ≠ Tok.eof := by
  unfold compTok
  split_ifs <;> exact ⟨by simp, by simp, by simp⟩

theorem readLineLoop_nil_spec (acc : List Tok) :
    readLineLoop [] acc =
      .ok ((if !(isEmptyLine acc) && !(lastIsNewline acc)
              then acc ++ [Tok.newline] else acc) ++ [Tok.eof], []) := by
  rw [readLineLoop.eq_def]

theorem rll_space (cs : List Char) (acc : List Tok) :
    readLineLoop (' ' :: cs) acc = readLineLoop (cs.dropWhile (· == ' ')) acc := by
  rw [readLineLoop.eq_def]
  rfl

theorem rll_comment (cs : List Char) (acc : List Tok) :
    readLineLoop ('#' :: cs) acc = readLineLoop (cs.dropWhile (· != '\n')) acc := by
  rw [readLineLoop.eq_def]
  rfl

theorem rll_string_ok (c : Char) (cs : List Char) (acc : List Tok)
    (s r : List Char)
    (h3 : c = '"' ∨ c = '\'') (hsb : stringBody cs c = .ok (s, r)) :
    readLineLoop (c :: cs) acc =
      readLineLoop r (acc ++ [Tok.str (String.mk s)]) := by
  have h1 : ¬c = ' ' := by rcases h3 with h | h <;> (subst h; decide)
  have h2 : ¬c = '#' := by rcases h3 with h | h <;> (subst h; decide)
  rw [readLineLoop.eq_def]
  simp only [if_neg h1, if_neg h2, if_pos h3]
  split
  next e heq => rw [hsb] at heq; cases heq
  next s2 r2 heq =>
    rw [hsb] at heq
    cases heq
    rfl

theorem rll_string_err (c : Char) (cs : List Char) (acc : List Tok)
    (e : LexErr)
    (h3 : c = '"' ∨ c = '\'') (hsb : stringBody cs c = .error e) :
    readLineLoop (c :: cs) acc = .error e := by
  have h1 : ¬c = ' ' := by rcases h3 with h | h <;> (subst h; decide)
  have h2 : ¬c = '#' := by rcases h3 with h | h <;> (subst h; decide)
  rw [readLineLoop.eq_def]
  simp only [if_neg h1, if_neg h2, if_pos h3]
  split
  next e2 heq => rw [hsb] at heq; cases heq; rfl
  next s2 r2 heq => rw [hsb] at heq; cases heq

theorem rll_digit (c : Char) (cs : List Char) (acc : List Tok)
    (h1 : ¬c = ' ') (h2 : ¬c = '#') (h3 : ¬(c = '"' ∨ c = '\''))
    (h4 : c.isDigit = true) :
    readLineLoop (c :: cs) acc =
      readLineLoop (cs.dropWhile Char.isDigit)
        (acc ++ [Tok.number (digitsToNat (c :: cs.takeWhile Char.isDigit))]) := by
  rw [readLineLoop.eq_def]
  simp only [if_neg h1, if_neg h2, if_neg h3, if_pos h4]

theorem rll_ident (c : Char) (cs : List Char) (acc : List Tok)
    (h1 : ¬c = ' ') (h2 : ¬c = '#') (h3 : ¬(c = '"' ∨ c = '\''))
    (h4 : ¬c.isDigit = true) (h5 : c.isAlpha = true ∨ c = '_') :
    readLineLoop (c :: cs) acc =
      readLineLoop (cs.dropWhile isIdentChar)
        (acc ++ [kwOrId (String.mk (c :: cs.takeWhile isIdentChar))]) := by
  rw [readLineLoop.eq_def]
  simp only [if_neg h1, if_neg h2, if_neg h3, if_neg h4, if_pos h5]

theorem rll_comp (c : Char) (cs : List Char) (acc : List Tok)
    (h1 : ¬c = ' ') (h2 : ¬c = '#') (h3 : ¬(c = '"' ∨ c = '\''))
    (h4 : ¬c.isDigit = true) (h5 : ¬(c.isAlpha = true ∨ c = '_'))
    (h6 : (c = '!' ∨ c = '=' ∨ c = '<' ∨ c = '>') ∧ cs.head? = some '=') :
    readLineLoop (c :: cs) acc = readLineLoop cs.tail (acc ++ [compTok c]) := by
  rw [readLineLoop.eq_def]
  simp only [if_neg h1, if_neg h2, if_neg h3, if_neg h4, if_neg h5, if_pos h6]

theorem rll_newline (c : Char) (cs : List Char) (acc : List Tok)
    (h1 : ¬c = ' ') (h2 : ¬c = '#') (h3 : ¬(c = '"' ∨ c = '\''))
    (h4 : ¬c.isDigit = true) (h5 : ¬(c.isAlpha = true ∨ c = '_'))
    (h6 : ¬((c = '!' ∨ c = '=' ∨ c = '<' ∨ c = '>') ∧ cs.head? = some '='))
    (h7 : c = '\n') :
    readLineLoop (c :: cs) acc = .ok (acc ++ [Tok.newline], cs) := by
  rw [readLineLoop.eq_def]
  simp only [if_neg h1, if_neg h2, if_neg h3, if_neg h4, if_neg h5, if_neg h6,
    if_pos h7]

theorem rll_char (c : Char) (cs : List Char) (acc : List Tok)
    (h1 : ¬c = ' ') (h2 : ¬c = '#') (h3 : ¬(c = '"' ∨ c = '\''))
    (h4 : ¬c.isDigit = true) (h5 : ¬(c.isAlpha = true ∨ c = '_'))
    (h6 : ¬((c = '!' ∨ c = '=' ∨ c = '<' ∨ c = '>') ∧ cs.head? = some '='))
    (h7 : ¬c = '\n') :
    readLineLoop (c :: cs) acc = readLineLoop cs (acc ++ [Tok.char c]) := by
  rw [readLineLoop.eq_def]
  simp only [if_neg h1, if_neg h2, if_neg h3, if_neg h4, if_neg h5, if_neg h6,
    if_neg h7]

/-- Structural facts about one run of the scanning loop: the unconsumed
remainder is a suffix of the input and strictly shorter when the input is
nonempty; the produced token list is nonempty; the loop only appends
tokens that are not `Indent`/`Dedent`; and when a newline is still ahead
in the input the loop exits at it and never appends `Eof`. -/
theorem readLineLoop_facts_aux :
    ∀ (n : Nat) (l : List Char), l.length ≤ n →
      ∀ (acc toks : List Tok) (rest : List Char),
      readLineLoop l acc = .ok (toks, rest) →
      rest <:+ l ∧ (l ≠ [] → rest.length < l.length) ∧ toks ≠ [] ∧
      (∀ t ∈ toks, t ∈ acc ∨ (t ≠ Tok.indent ∧ t ≠ Tok.dedent)) ∧
      ('\n' ∈ l → ∀ t ∈ toks, t ∈ acc ∨ t ≠ Tok.eof) := by
  intro n
  induction n with
  | zero =>
    intro l hl acc toks rest h
    have hnil : l = [] := List.eq_nil_of_length_eq_zero (Nat.le_zero.mp hl)
    subst hnil
    rw [readLineLoop_nil_spec] at h
    cases h
    refine ⟨List.suffix_refl _, fun hne => absurd rfl hne, by simp, ?_, ?_⟩
    · intro t ht
      rcases List.mem_append.mp ht with ht | ht
      · split at ht
        · rcases List.mem_append.mp ht with ht | ht
          · exact Or.inl ht
          · simp only [List.mem_singleton] at ht
            subst ht; exact Or.inr (by simp)
        · exact Or.inl ht
      · simp only [List.mem_singleton] at ht
        subst ht; exact Or.inr (by simp)
    · intro hmem; cases hmem
  | succ n ih =>
    intro l hl acc toks rest h
    cases l with
    | nil =>
      rw [readLineLoop_nil_spec] at h
      cases h
      refine ⟨List.suffix_refl _, fun hne => absurd rfl hne, by simp, ?_, ?_⟩
      · intro t ht
        rcases List.mem_append.mp ht with ht | ht
        · split at ht
          · rcases List.mem_append.mp ht with ht | ht
            · exact Or.inl ht
            · simp only [List.mem_singleton] at ht
              subst ht; exact Or.inr (by simp)
          · exact Or.inl ht
        · simp only [List.mem_singleton] at ht
          subst ht; exact Or.inr (by simp)
      · intro hmem; cases hmem
    | cons c cs =>
      have hlen : cs.length ≤ n := by
        simp only [List.length_cons] at hl; omega
      by_cases h1 : c = ' '
      · subst h1
        rw [rll_space] at h
        have hlen2 : (cs.dropWhile (· == ' ')).length ≤ n :=
          le_trans (List.dropWhile_suffix _).length_le hlen
        obtain ⟨hsuf, _, hne, hmem, hnl⟩ := ih _ hlen2 acc toks rest h
        have hsuf2 : rest <:+ ' ' :: cs :=
          (hsuf.trans (List.dropWhile_suffix _)).trans (List.suffix_cons _ _)
        refine ⟨hsuf2, ?_, hne, hmem, ?_⟩
        · intro _
          have := (hsuf.trans (List.dropWhile_suffix _)).length_le
          simp only [List.length_cons]; omega
        · intro hm
          have hmcs : '\n' ∈ cs := by
            rcases List.mem_cons.mp hm with hc | hc
            · exact absurd hc (by decide)
            · exact hc
          exact hnl (mem_dropWhile_of_neg hmcs (by decide))
      · by_cases h2 : c = '#'
        · subst h2
          rw [rll_comment] at h
          have hlen2 : (cs.dropWhile (· != '\n')).length ≤ n :=
            le_trans (List.dropWhile_suffix _).length_le hlen
          obtain ⟨hsuf, _, hne, hmem, hnl⟩ := ih _ hlen2 acc toks rest h
          have hsuf2 : rest <:+ '#' :: cs :=
            (hsuf.trans (List.dropWhile_suffix _)).trans (List.suffix_cons _ _)
          refine ⟨hsuf2, ?_, hne, hmem, ?_⟩
          · intro _
            have := (hsuf.trans (List.dropWhile_suffix _)).length_le
            simp only [List.length_cons]; omega
          · intro hm
            have hmcs : '\n' ∈ cs := by
              rcases List.mem_cons.mp hm with hc | hc
              · exact absurd hc (by decide)
              · exact hc
            exact hnl (mem_dropWhile_of_neg hmcs (by decide))
        · by_cases h3 : c = '"' ∨ c = '\''
          · cases hsb : stringBody cs c with
            | error e =>
              rw [rll_string_err c cs acc e h3 hsb] at h
              cases h
            | ok p =>
              obtain ⟨s0, r0⟩ := p
              rw [rll_string_ok c cs acc s0 r0 h3 hsb] at h
              have hr0 : r0 <:+ cs := stringBody_rest_suffix cs c s0 r0 hsb
              have hlen2 : r0.length ≤ n := le_trans hr0.length_le hlen
              obtain ⟨hsuf, _, hne, hmem, hnl⟩ := ih _ hlen2 _ toks rest h
              have hsuf2 : rest <:+ c :: cs :=
                (hsuf.trans hr0).trans (List.suffix_cons _ _)
              refine ⟨hsuf2, ?_, hne, ?_, ?_⟩
              · intro _
                have := (hsuf.trans hr0).length_le
                simp only [List.length_cons]; omega
              · intro t ht
                rcases hmem t ht with hta | hta
                · rcases List.mem_append.mp hta with hta | hta
                  · exact Or.inl hta
                  · simp only [List.mem_singleton] at hta
                    subst hta; exact Or.inr (by simp)
                · exact Or.inr hta
              · intro hm t ht
                have hq : c ≠ '\n' := by
                  rcases h3 with hc | hc <;> (subst hc; decide)
                have hmcs : '\n' ∈ cs := by
                  rcases List.mem_cons.mp hm with hc | hc
                  · exact absurd hc.symm hq
                  · exact hc
                have hmr0 : '\n' ∈ r0 := stringBody_mem_newline hq hsb hmcs
                rcases hnl hmr0 t ht with hta | hta
                · rcases List.mem_append.mp hta with hta | hta
                  · exact Or.inl hta
                  · simp only [List.mem_singleton] at hta
                    subst hta; exact Or.inr (by simp)
                · exact Or.inr hta
          · by_cases h4 : c.isDigit = true
            · rw [rll_digit c cs acc h1 h2 h3 h4] at h
              have hlen2 : (cs.dropWhile Char.isDigit).length ≤ n :=
                le_trans (List.dropWhile_suffix _).length_le hlen
              obtain ⟨hsuf, _, hne, hmem, hnl⟩ := ih _ hlen2 _ toks rest h
              have hsuf2 : rest <:+ c :: cs :=
                (hsuf.trans (List.dropWhile_suffix _)).trans
                  (List.suffix_cons _ _)
              refine ⟨hsuf2, ?_, hne, ?_, ?_⟩
              · intro _
                have := (hsuf.trans (List.dropWhile_suffix _)).length_le
                simp only [List.length_cons]; omega
              · intro t ht
                rcases hmem t ht with hta | hta
                · rcases List.mem_append.mp hta with hta | hta
                  · exact Or.inl hta
                  · simp only [List.mem_singleton] at hta
                    subst hta; exact Or.inr (by simp)
                · exact Or.inr hta
              · intro hm t ht
                have hq : c ≠ '\n' := by
                  intro hc; subst hc; exact absurd h4 (by decide)
                have hmcs : '\n' ∈ cs := by
                  rcases List.mem_cons.mp hm with hc | hc
                  · exact absurd hc.symm hq
                  · exact hc
                rcases hnl (mem_dropWhile_of_neg hmcs (by decide)) t ht with
                  hta | hta
                · rcases List.mem_append.mp hta with hta | hta
                  · exact Or.inl hta
                  · simp only [List.mem_singleton] at hta
                    subst hta; exact Or.inr (by simp)
                · exact Or.inr hta
            · by_cases h5 : c.isAlpha = true ∨ c = '_'
              · rw [rll_ident c cs acc h1 h2 h3 h4 h5] at h
                have hlen2 : (cs.dropWhile isIdentChar).length ≤ n :=
                  le_trans (List.dropWhile_suffix _).length_le hlen
                obtain ⟨hsuf, _, hne, hmem, hnl⟩ := ih _ hlen2 _ toks rest h
                have hsuf2 : rest <:+ c :: cs :=
                  (hsuf.trans (List.dropWhile_suffix _)).trans
                    (List.suffix_cons _ _)
                obtain ⟨hkw1, hkw2, hkw3⟩ :=
                  kwOrId_ne (String.mk (c :: cs.takeWhile isIdentChar))
                refine ⟨hsuf2, ?_, hne, ?_, ?_⟩
                · intro _
                  have := (hsuf.trans (List.dropWhile_suffix _)).length_le
                  simp only [List.length_cons]; omega
                · intro t ht
                  rcases hmem t ht with hta | hta
                  · rcases List.mem_append.mp hta with hta | hta
                    · exact Or.inl hta
                    · simp only [List.mem_singleton] at hta
                      subst hta; exact Or.inr ⟨hkw1, hkw2⟩
                  · exact Or.inr hta
                · intro hm t ht
                  have hq : c ≠ '\n' := by
                    rcases h5 with hc | hc
                    · intro he; subst he; exact absurd hc (by decide)
                    · subst hc; decide
                  have hmcs : '\n' ∈ cs := by
                    rcases List.mem_cons.mp hm with hc | hc
                    · exact absurd hc.symm hq
                    · exact hc
                  rcases hnl (mem_dropWhile_of_neg hmcs (by decide)) t ht with
                    hta | hta
                  · rcases List.mem_append.mp hta with hta | hta
                    · exact Or.inl hta
                    · simp only [List.mem_singleton] at hta
                      subst hta; exact Or.inr hkw3
                  · exact Or.inr hta
              · by_cases h6 : (c = '!' ∨ c = '=' ∨ c = '<' ∨ c = '>') ∧
                    cs.head? = some '='
                · rw [rll_comp c cs acc h1 h2 h3 h4 h5 h6] at h
                  obtain ⟨heq, hhd⟩ := h6
                  have hcs : cs = '=' :: cs.tail := by
                    cases cs with
                    | nil => simp at hhd
                    | cons d t =>
                      simp only [List.head?_cons, Option.some.injEq] at hhd
                      subst hhd; rfl
                  have hlen2 : cs.tail.length ≤ n :=
                    le_trans (by rw [List.length_tail]; omega) hlen
                  obtain ⟨hsuf, _, hne, hmem, hnl⟩ := ih _ hlen2 _ toks rest h
                  have hsuf3 : cs.tail <:+ cs := by
                    rw [hcs]; exact List.suffix_cons _ _
                  have hsuf2 : rest <:+ c :: cs :=
                    (hsuf.trans hsuf3).trans (List.suffix_cons _ _)
                  obtain ⟨hcp1, hcp2, hcp3⟩ := compTok_ne c
                  refine ⟨hsuf2, ?_, hne, ?_, ?_⟩
                  · intro _
                    have := (hsuf.trans hsuf3).length_le
                    simp only [List.length_cons]; omega
                  · intro t ht
                    rcases hmem t ht with hta | hta
                    · rcases List.mem_append.mp hta with hta | hta
                      · exact Or.inl hta
                      · simp only [List.mem_singleton] at hta
                        subst hta; exact Or.inr ⟨hcp1, hcp2⟩
                    · exact Or.inr hta
                  · intro hm t ht
                    have hq : c ≠ '\n' := by
                      rcases heq with hc | hc | hc | hc <;> (subst hc; decide)
                    have hmcs : '\n' ∈ cs := by
                      rcases List.mem_cons.mp hm with hc | hc
                      · exact absurd hc.symm hq
                      · exact hc
                    have hmt : '\n' ∈ cs.tail := by
                      rw [hcs] at hmcs
                      rcases List.mem_cons.mp hmcs with hc | hc
                      · exact absurd hc (by decide)
                      · exact hc
                    rcases hnl hmt t ht with hta | hta
                    · rcases List.mem_append.mp hta with hta | hta
                      · exact Or.inl hta
                      · simp only [List.mem_singleton] at hta
                        subst hta; exact Or.inr hcp3
                    · exact Or.inr hta
                · by_cases h7 : c = '\n'
                  · rw [rll_newline c cs acc h1 h2 h3 h4 h5 h6 h7] at h
                    cases h
                    refine ⟨List.suffix_cons _ _, ?_, by simp, ?_, ?_⟩
                    · intro _; simp
                    · intro t ht
                      rcases List.mem_append.mp ht with hta | hta
                      · exact Or.inl hta
                      · simp only [List.mem_singleton] at hta
                        subst hta; exact Or.inr (by simp)
                    · intro _ t ht
                      rcases List.mem_append.mp ht with hta | hta
                      · exact Or.inl hta
                      · simp only [List.mem_singleton] at hta
                        subst hta; exact Or.inr (by simp)
                  · rw [rll_char c cs acc h1 h2 h3 h4 h5 h6 h7] at h
                    obtain ⟨hsuf, _, hne, hmem, hnl⟩ := ih _ hlen _ toks rest h
                    have hsuf2 : rest <:+ c :: cs :=
                      hsuf.trans (List.suffix_cons _ _)
                    refine ⟨hsuf2, ?_, hne, ?_, ?_⟩
                    · intro _
                      have := hsuf.length_le
                      simp only [List.length_cons]; omega
                    · intro t ht
                      rcases hmem t ht with hta | hta
                      · rcases List.mem_append.mp hta with hta | hta
                        · exact Or.inl hta
                        · simp only [List.mem_singleton] at hta
                          subst hta; exact Or.inr (by simp)
                      · exact Or.inr hta
                    · intro hm t ht
                      have hmcs : '\n' ∈ cs := by
                        rcases List.mem_cons.mp hm with hc | hc
                        · exact absurd hc.symm h7
                        · exact hc
                      rcases hnl hmcs t ht with hta | hta
                      · rcases List.mem_append.mp hta with hta | hta
                        · exact Or.inl hta
                        · simp only [List.mem_singleton] at hta
                          subst hta; exact Or.inr (by simp)
                      · exact Or.inr hta

theorem mem_of_getLast?_eq_some {α : Type} {l : List α} {a : α}
    (h : l.getLast? = some a) : a ∈ l := by
  obtain ⟨hne, hx⟩ := List.mem_getLast?_eq_getLast (by rw [h]; rfl)
  rw [hx]
  exact List.getLast_mem hne

theorem readLine_ok_elim {input : List Char} {sp : Nat} {toks : List Tok}
    {rest : List Char} (h : readLine input = .ok (sp, toks, rest)) :
    sp = ((input.dropWhile (· == '\n')).takeWhile (· == ' ')).length ∧
    readLineLoop ((input.dropWhile (· == '\n')).dropWhile (· == ' ')) [] =
      .ok (toks, rest) := by
  simp only [readLine] at h
  cases hloop : readLineLoop
      ((input.dropWhile (· == '\n')).dropWhile (· == ' ')) [] with
  | error e =>
    rw [hloop] at h
    cases h
  | ok p =>
    obtain ⟨toks0, rest0⟩ := p
    rw [hloop] at h
    cases h
    exact ⟨rfl, rfl⟩

theorem readLine_facts {input : List Char} {sp : Nat} {toks : List Tok}
    {rest : List Char} (h : readLine input = .ok (sp, toks, rest)) :
    rest <:+ input ∧ (input ≠ [] → rest.length < input.length) ∧ toks ≠ [] ∧
    (∀ t ∈ toks, t ≠ Tok.indent ∧ t ≠ Tok.dedent) := by
  obtain ⟨_, hloop⟩ := readLine_ok_elim h
  obtain ⟨hsuf, hstrict, hne, hmem, _⟩ :=
    readLineLoop_facts_aux _ _ (Nat.le_refl _) [] toks rest hloop
  have hbsuf : (input.dropWhile (· == '\n')).dropWhile (· == ' ') <:+ input :=
    (List.dropWhile_suffix _).trans (List.dropWhile_suffix _)
  refine ⟨hsuf.trans hbsuf, ?_, hne, ?_⟩
  · intro hinp
    by_cases hlen :
        ((input.dropWhile (· == '\n')).dropWhile (· == ' ')).length <
          input.length
    · exact lt_of_le_of_lt hsuf.length_le hlen
    · have heq : (input.dropWhile (· == '\n')).dropWhile (· == ' ') = input :=
        hbsuf.eq_of_length (le_antisymm hbsuf.length_le (not_lt.mp hlen))
      rw [heq] at hstrict
      exact hstrict hinp
  · intro t ht
    rcases hmem t ht with hta | hta
    · cases hta
    · exact hta

theorem readLine_eof_free {input : List Char} {sp : Nat} {toks : List Tok}
    {rest : List Char} (h : readLine input = .ok (sp, toks, rest))
    (hgood : input = [] ∨ input.getLast? = some '\n')
    (hnae : isAllEof toks = false) : Tok.eof ∉ toks := by
  obtain ⟨_, hloop⟩ := readLine_ok_elim h
  by_cases hb : (input.dropWhile (· == '\n')).dropWhile (· == ' ') = []
  · rw [hb, readLineLoop_nil_spec] at hloop
    simp only [isEmptyLine, lastIsNewline] at hloop
    simp only [List.isEmpty_nil, Bool.true_or, Bool.not_true,
      Bool.false_and, if_false, List.nil_append] at hloop
    cases hloop
    simp [isAllEof] at hnae
  · have hbsuf :
        (input.dropWhile (· == '\n')).dropWhile (· == ' ') <:+ input :=
      (List.dropWhile_suffix _).trans (List.dropWhile_suffix _)
    have hinp : input ≠ [] := by
      intro he
      subst he
      simp at hb
    rcases hgood with he | hl
    · exact absurd he hinp
    · have hbl :
          ((input.dropWhile (· == '\n')).dropWhile (· == ' ')).getLast? =
            some '\n' := by
        obtain ⟨t, ht⟩ := hbsuf
        rw [← ht, List.getLast?_append] at hl
        cases hx :
            ((input.dropWhile (· == '\n')).dropWhile (· == ' ')).getLast? with
        | none => exact absurd (List.getLast?_eq_none_iff.mp hx) hb
        | some a =>
          rw [hx] at hl
          exact hl
      have hmemb : '\n' ∈ (input.dropWhile (· == '\n')).dropWhile (· == ' ') :=
        mem_of_getLast?_eq_some hbl
      obtain ⟨_, _, _, _, hnl⟩ :=
        readLineLoop_facts_aux _ _ (Nat.le_refl _) [] toks rest hloop
      intro hEof
      rcases hnl hmemb _ hEof with hta | hta
      · cases hta
      · exact hta rfl

theorem readLine_nil : readLine [] = .ok (0, [Tok.eof], []) := by
  simp [readLine, readLineLoop_nil_spec, isEmptyLine, lastIsNewline]

/-! ## Lexer driver (`Lexer::ParseLine`, `lexer.cpp`) -/

/-- The run of `Indent` or `Dedent` tokens that `Lexer::ParseLine` emits
before a line whose indent level differs from `cur_indent_` (no tokens
when the level is unchanged). -/
def indentDelta (cur new : Nat) : List Tok :=
  if cur < new then List.replicate (new - cur) Tok.indent
  else List.replicate (cur - new) Tok.dedent

/-- Outcome of one `Lexer::ParseLine` call on the remaining input:
`emit` — a non-empty, non-all-Eof line: the indent delta and the line's
tokens are appended and `cur_indent_` becomes `newIndent`;
`finish` — an all-Eof line: `cur_indent_` many `Dedent` tokens and a final
`Eof` are appended and the token stream is complete;
`skip` — an empty line: nothing is appended and `ParseLine` recurses. -/
inductive ParseStep where
  | emit (delta toks : List Tok) (rest : List Char) (newIndent : Nat)
  | finish (toks : List Tok)
  | skip (rest : List Char)
deriving DecidableEq, Repr

/-- One `Lexer::ParseLine` call (`lexer.cpp`): read a line; if its
leading-space count is odd throw `Incorrect indent.`; otherwise classify
the line as in `ParseStep`. -/
def parseLineStep (input : List Char) (curIndent : Nat) :
    Except LexErr ParseStep :=
  match readLine input with
  | .error e => .error e
  | .ok (spaces, toks, rest) =>
    if spaces % 2 ≠ 0 then .error .incorrectIndent
    else if !(isAllEof toks) && !(isEmptyLine toks) then
      .ok (.emit (indentDelta curIndent (spaces / 2)) toks rest (spaces / 2))
    else if isAllEof toks then
      .ok (.finish (List.replicate curIndent Tok.dedent ++ [Tok.eof]))
    else
      .ok (.skip rest)

theorem parseLineStep_emit_elim {input : List Char} {ind : Nat}
    {d t : List Tok} {rest : List Char} {n' : Nat}
    (h : parseLineStep input ind = .ok (.emit d t rest n')) :
    ∃ sp toks, readLine input = .ok (sp, toks, rest) ∧ sp % 2 = 0 ∧
      isAllEof toks = false ∧ isEmptyLine toks = false ∧ t = toks ∧
      d = indentDelta ind (sp / 2) ∧ n' = sp / 2 := by
  unfold parseLineStep at h
  cases hr : readLine input with
  | error e => rw [hr] at h; cases h
  | ok p =>
    obtain ⟨sp, toks, rest0⟩ := p
    rw [hr] at h
    dsimp only at h
    by_cases hodd : sp % 2 ≠ 0
    · rw [if_pos hodd] at h; cases h
    · rw [if_neg hodd] at h
      by_cases hemit : (!(isAllEof toks) && !(isEmptyLine toks)) = true
      · rw [if_pos hemit] at h
        simp only [Bool.and_eq_true, Bool.not_eq_true'] at hemit
        cases h
        exact ⟨sp, _, rfl, by omega, hemit.1, hemit.2, rfl, rfl, rfl⟩
      · rw [if_neg hemit] at h
        by_cases hae : isAllEof toks = true
        · rw [if_pos hae] at h; cases h
        · rw [if_neg hae] at h; cases h

theorem parseLineStep_skip_elim {input : List Char} {ind : Nat}
    {rest : List Char}
    (h : parseLineStep input ind = .ok (.skip rest)) :
    ∃ sp toks, readLine input = .ok (sp, toks, rest) ∧ sp % 2 = 0 ∧
      isAllEof toks = false ∧ isEmptyLine toks = true := by
  unfold parseLineStep at h
  cases hr : readLine input with
  | error e => rw [hr] at h; cases h
  | ok p =>
    obtain ⟨sp, toks, rest0⟩ := p
    rw [hr] at h
    dsimp only at h
    by_cases hodd : sp % 2 ≠ 0
    · rw [if_pos hodd] at h; cases h
    · rw [if_neg hodd] at h
      by_cases hemit : (!(isAllEof toks) && !(isEmptyLine toks)) = true
      · rw [if_pos hemit] at h; cases h
      · rw [if_neg hemit] at h
        by_cases hae : isAllEof toks = true
        · rw [if_pos hae] at h; cases h
        · rw [if_neg hae] at h
          cases h
          simp only [Bool.not_eq_true] at hae
          have hemp : isEmptyLine toks = true := by
            rcases Bool.eq_false_or_eq_true (isEmptyLine toks) with ht | hf
            · exact ht
            · rw [hae, hf] at hemit
              simp at hemit
          exact ⟨sp, toks, rfl, by omega, hae, hemp⟩

theorem parseLineStep_finish_elim {input : List Char} {ind : Nat}
    {t : List Tok}
    (h : parseLineStep input ind = .ok (.finish t)) :
    ∃ sp toks rest, readLine input = .ok (sp, toks, rest) ∧ sp % 2 = 0 ∧
      isAllEof toks = true ∧
      t = List.replicate ind Tok.dedent ++ [Tok.eof] := by
  unfold parseLineStep at h
  cases hr : readLine input with
  | error e => rw [hr] at h; cases h
  | ok p =>
    obtain ⟨sp, toks, rest0⟩ := p
    rw [hr] at h
    dsimp only at h
    by_cases hodd : sp % 2 ≠ 0
    · rw [if_pos hodd] at h; cases h
    · rw [if_neg hodd] at h
      by_cases hemit : (!(isAllEof toks) && !(isEmptyLine toks)) = true
      · rw [if_pos hemit] at h; cases h
      · rw [if_neg hemit] at h
        by_cases hae : isAllEof toks = true
        · rw [if_pos hae] at h
          cases h
          exact ⟨sp, toks, rest0, rfl, by omega, hae, rfl⟩
        · rw [if_neg hae] at h; cases h

theorem parseLineStep_emit_length {input : List Char} {ind : Nat}
    {d t : List Tok} {rest : List Char} {n' : Nat}
    (h : parseLineStep input ind = .ok (.emit d t rest n')) :
    rest.length < input.length := by
  obtain ⟨sp, toks, hr, _, hae, _, _, _, _⟩ := parseLineStep_emit_elim h
  have hinp : input ≠ [] := by
    intro he
    subst he
    rw [readLine_nil] at hr
    cases hr
    simp [isAllEof] at hae
  exact (readLine_facts hr).2.1 hinp

theorem parseLineStep_skip_length {input : List Char} {ind : Nat}
    {rest : List Char}
    (h : parseLineStep input ind = .ok (.skip rest)) :
    rest.length < input.length := by
  obtain ⟨sp, toks, hr, _, hae, _⟩ := parseLineStep_skip_elim h
  have hinp : input ≠ [] := by
    intro he
    subst he
    rw [readLine_nil] at hr
    cases hr
    simp [isAllEof] at hae
  exact (readLine_facts hr).2.1 hinp

/-- The complete token stream of a `Lexer` run: the concatenation of the
tokens appended by repeated `Lexer::ParseLine` calls (the constructor's
call plus the calls triggered by `Lexer::NextToken` reaching the tail of
the buffer), up to and including the terminal all-Eof call that emits the
closing `Dedent` run and the final `Eof`.  `curIndent` is `cur_indent_`. -/
def lexLines (input : List Char) (curIndent : Nat) :
    Except LexErr (List Tok) :=
  match hstep : parseLineStep input curIndent with
  | .error e => .error e
  | .ok (.emit delta toks rest newIndent) =>
    match lexLines rest newIndent with
    | .ok s => .ok (delta ++ toks ++ s)
    | .error e => .error e
  | .ok (.finish toks) => .ok toks
  | .ok (.skip rest) => lexLines rest curIndent
termination_by input.length
decreasing_by
  · exact parseLineStep_emit_length hstep
  · exact parseLineStep_skip_length hstep

theorem lexLines_error {input : List Char} {ind : Nat} {e : LexErr}
    (h : parseLineStep input ind = .error e) :
    lexLines input ind = .error e := by
  rw [lexLines.eq_def]
  split
  next e2 heq => rw [h] at heq; cases heq; rfl
  next d2 t2 r2 n2 heq => rw [h] at heq; cases heq
  next t2 heq => rw [h] at heq; cases heq
  next r2 heq => rw [h] at heq; cases heq

theorem lexLines_emit {input : List Char} {ind : Nat} {d t : List Tok}
    {rest : List Char} {n' : Nat}
    (h : parseLineStep input ind = .ok (.emit d t rest n')) :
    lexLines input ind =
      match lexLines rest n' with
      | .ok s => .ok (d ++ t ++ s)
      | .error e => .error e := by
  rw [lexLines.eq_def]
  split
  next e2 heq => rw [h] at heq; cases heq
  next d2 t2 r2 n2 heq => rw [h] at heq; cases heq; rfl
  next t2 heq => rw [h] at heq; cases heq
  next r2 heq => rw [h] at heq; cases heq

theorem lexLines_finish {input : List Char} {ind : Nat} {t : List Tok}
    (h : parseLineStep input ind = .ok (.finish t)) :
    lexLines input ind = .ok t := by
  rw [lexLines.eq_def]
  split
  next e2 heq => rw [h] at heq; cases heq
  next d2 t2 r2 n2 heq => rw [h] at heq; cases heq
  next t2 heq => rw [h] at heq; cases heq; rfl
  next r2 heq => rw [h] at heq; cases heq

theorem lexLines_skip {input : List Char} {ind : Nat} {rest : List Char}
    (h : parseLineStep input ind = .ok (.skip rest)) :
    lexLines input ind = lexLines rest ind := by
  rw [lexLines.eq_def]
  split
  next e2 heq => rw [h] at heq; cases heq
  next d2 t2 r2 n2 heq => rw [h] at heq; cases heq
  next t2 heq => rw [h] at heq; cases heq
  next r2 heq => rw [h] at heq; cases heq; rfl

/-- Every physical line of the input is terminated by a newline character
(equivalently, the input is empty or its last character is `'\n'`). -/
def newlineTerminated (input : List Char) : Prop :=
  input = [] ∨ input.getLast? = some '\n'

instance (input : List Char) : Decidable (newlineTerminated input) := by
  unfold newlineTerminated
  infer_instance

theorem newlineTerminated_suffix {l input : List Char} (hs : l <:+ input)
    (h : newlineTerminated input) : newlineTerminated l := by
  rcases h with h | h
  · subst h
    left
    obtain ⟨t, ht⟩ := hs
    exact (List.append_eq_nil.mp ht).2
  · cases hl : l.getLast? with
    | none => exact Or.inl (List.getLast?_eq_none_iff.mp hl)
    | some a =>
      right
      obtain ⟨t, ht⟩ := hs
      rw [← ht, List.getLast?_append, hl] at h
      rw [hl]
      exact h

theorem indentDelta_counts (a b : Nat) :
    (indentDelta a b).count Tok.indent = b - a ∧
    (indentDelta a b).count Tok.dedent = a - b ∧
    Tok.eof ∉ indentDelta a b := by
  unfold indentDelta
  split_ifs with h
  · refine ⟨by simp [List.count_replicate],
      by simp [List.count_replicate, Nat.sub_eq_zero_of_le (Nat.le_of_lt h)],
      ?_⟩
    · intro hm
      have := List.eq_of_mem_replicate hm
      cases this
  · refine ⟨by simp [List.count_replicate, Nat.sub_eq_zero_of_le (le_of_not_lt h)],
      by simp [List.count_replicate], ?_⟩
    · intro hm
      have := List.eq_of_mem_replicate hm
      cases this

theorem count_eq_zero_of_forall_ne {l : List Tok} {a : Tok}
    (h : ∀ t ∈ l, t ≠ a) : l.count a = 0 :=
  List.count_eq_zero.mpr (fun hm => (h a hm) rfl)

/-- Shape of the complete token stream produced from a newline-terminated
input, relative to the lexer's current indent level: a body free of `Eof`,
then the closing `Dedent` run, then a single `Eof`, with the indent/dedent
balance of the body accounting for the initial level and the dedent run. -/
theorem lexLines_shape_aux :
    ∀ (n : Nat) (input : List Char), input.length ≤ n →
      ∀ (ind : Nat) (s : List Tok), newlineTerminated input →
      lexLines input ind = .ok s →
      ∃ body k, s = body ++ List.replicate k Tok.dedent ++ [Tok.eof] ∧
        Tok.eof ∉ body ∧
        body.count Tok.indent + ind = body.count Tok.dedent + k := by
  intro n
  induction n with
  | zero =>
    intro input hl ind s hnt h
    have hnil : input = [] :=
      List.eq_nil_of_length_eq_zero (Nat.le_zero.mp hl)
    subst hnil
    have hstep : parseLineStep [] ind =
        .ok (.finish (List.replicate ind Tok.dedent ++ [Tok.eof])) := by
      unfold parseLineStep
      rw [readLine_nil]
      dsimp only
      norm_num [isAllEof, isEmptyLine]
    rw [lexLines_finish hstep] at h
    cases h
    exact ⟨[], ind, by simp, by simp, by simp⟩
  | succ n ih =>
    intro input hl ind s hnt h
    cases hstep : parseLineStep input ind with
    | error e =>
      rw [lexLines_error hstep] at h
      cases h
    | ok step =>
      cases step with
      | finish t =>
        rw [lexLines_finish hstep] at h
        cases h
        obtain ⟨sp, toks, rest, hr, hsp, hae, hts⟩ :=
          parseLineStep_finish_elim hstep
        exact ⟨[], ind, by simp [hts], by simp, by simp⟩
      | skip rest =>
        rw [lexLines_skip hstep] at h
        obtain ⟨sp, toks, hr, hsp, hae, hemp⟩ := parseLineStep_skip_elim hstep
        have hsuf : rest <:+ input := (readLine_facts hr).1
        have hlen : rest.length ≤ n := by
          have := parseLineStep_skip_length hstep
          omega
        exact ih rest hlen ind s (newlineTerminated_suffix hsuf hnt) h
      | emit d t rest n' =>
        rw [lexLines_emit hstep] at h
        obtain ⟨sp, toks, hr, hsp, hae, hemp, htt, hdd, hnn⟩ :=
          parseLineStep_emit_elim hstep
        cases hrec : lexLines rest n' with
        | error e => rw [hrec] at h; cases h
        | ok s' =>
          rw [hrec] at h
          cases h
          have hsuf : rest <:+ input := (readLine_facts hr).1
          have hlen : rest.length ≤ n := by
            have := parseLineStep_emit_length hstep
            omega
          obtain ⟨body', k, hshape, heof', hcount⟩ :=
            ih rest hlen n' s' (newlineTerminated_suffix hsuf hnt) hrec
          have hmem := (readLine_facts hr).2.2.2
          have heoftoks : Tok.eof ∉ toks :=
            readLine_eof_free hr hnt hae
          obtain ⟨hdi, hdd2, hde⟩ := indentDelta_counts ind (sp / 2)
          have hti : toks.count Tok.indent = 0 :=
            count_eq_zero_of_forall_ne (fun t ht => (hmem t ht).1)
          have htd : toks.count Tok.dedent = 0 :=
            count_eq_zero_of_forall_ne (fun t ht => (hmem t ht).2)
          refine ⟨d ++ toks ++ body', k, ?_, ?_, ?_⟩
          · subst hshape htt
            simp [List.append_assoc]
          · subst htt
            intro hm
            rcases List.mem_append.mp hm with hm | hm
            · rcases List.mem_append.mp hm with hm | hm
              · exact (hdd ▸ hde) hm
              · exact heoftoks hm
            · exact heof' hm
          · subst htt hdd hnn
            simp only [List.count_append]
            rw [hdi, hdd2, hti, htd]
            omega

/-! ## Claim C1 and C2 support: concrete lexer runs -/

theorem parseLineStep_nil (ind : Nat) :
    parseLineStep [] ind =
      .ok (.finish (List.replicate ind Tok.dedent ++ [Tok.eof])) := by
  simp +decide [parseLineStep, readLine_nil, isAllEof, isEmptyLine]

theorem readLine_a_newline :
    readLine ['a', '\n'] = .ok (0, [Tok.id "a", Tok.newline], []) := by
  simp +decide [readLine, rll_ident, rll_newline, kwOrId]

theorem parseLineStep_a_newline :
    parseLineStep ['a', '\n'] 0 =
      .ok (.emit [] [Tok.id "a", Tok.newline] [] 0) := by
  simp +decide [parseLineStep, readLine_a_newline, isAllEof, isEmptyLine,
    indentDelta]

theorem lexLines_a_newline :
    lexLines ['a', '\n'] 0 = .ok [Tok.id "a", Tok.newline, Tok.eof] := by
  rw [lexLines_emit parseLineStep_a_newline,
    lexLines_finish (parseLineStep_nil 0)]
  rfl

theorem readLine_space_newline :
    readLine [' ', '\n'] = .ok (1, [Tok.newline], []) := by
  simp +decide [readLine, rll_newline]

theorem readLine_two_spaces_newline :
    readLine [' ', ' ', '\n'] = .ok (2, [Tok.newline], []) := by
  simp +decide [readLine, rll_newline]

/-! ## Claims about the lexer -/

/-- C1 (amended): for every well-formed source stream in which every line
is newline-terminated (empty input or input ending in `'\n'`), the
complete token stream is a body free of `Eof`, followed by exactly enough
`Dedent` tokens to return the indent level to 0, followed by a single
`Eof`; Indent/Dedent counts balance over the whole stream and the `Eof`
count is exactly 1.  (The original claim, which extends this to inputs
whose last line is not newline-terminated, is refuted by
`C1_counterexample`.) -/
theorem C1_token_stream_shape (input : List Char) (s : List Tok)
    (hnt : newlineTerminated input) (h : lexLines input 0 = .ok s) :
    ∃ body k, s = body ++ List.replicate k Tok.dedent ++ [Tok.eof] ∧
      Tok.eof ∉ body ∧ body.count Tok.indent = body.count Tok.dedent + k ∧
      s.count Tok.eof = 1 ∧ s.count Tok.indent = s.count Tok.dedent := by
  obtain ⟨body, k, hs, he, hc⟩ :=
    lexLines_shape_aux input.length input (Nat.le_refl _) 0 s hnt h
  have hbe : body.count Tok.eof = 0 := List.count_eq_zero.mpr he
  refine ⟨body, k, hs, he, by omega, ?_, ?_⟩
  · subst hs
    simp +decide [List.count_append, List.count_replicate,
      List.count_singleton, hbe]
  · subst hs
    simp +decide [List.count_append, List.count_replicate,
      List.count_singleton]
    omega

/-- C1 witness: the shape theorem applied to the concrete newline-terminated
source `"a\n"`, whose complete token stream is `Id "a", Newline, Eof`. -/
theorem C1_token_stream_shape_witness :
    newlineTerminated ['a', '\n'] ∧
    (∃ body k,
      [Tok.id "a", Tok.newline, Tok.eof] =
        body ++ List.replicate k Tok.dedent ++ [Tok.eof] ∧
      Tok.eof ∉ body ∧ body.count Tok.indent = body.count Tok.dedent + k ∧
      [Tok.id "a", Tok.newline, Tok.eof].count Tok.eof = 1 ∧
      [Tok.id "a", Tok.newline, Tok.eof].count Tok.indent =
        [Tok.id "a", Tok.newline, Tok.eof].count Tok.dedent) :=
  ⟨by decide,
   C1_token_stream_shape ['a', '\n'] _ (by decide) lexLines_a_newline⟩

/-- C1 counterexample: the source `"a\n  b"` — the last line `"  b"` is
non-empty, indented, and not newline-terminated.  Lexing succeeds, but the
`Eof` synthesized at the end of the unterminated line enters the stream
before the closing `Dedent` and the final `Eof`: the complete stream
contains two `Eof` tokens (falsifying "exactly one Eof"), and the prefix
before the first `Eof` holds one `Indent` and no `Dedent` (so even a
consumer that stops at the first `Eof` sees unbalanced indentation). -/
theorem C1_counterexample :
    lexLines ['a', '\n', ' ', ' ', 'b'] 0 =
      .ok [Tok.id "a", Tok.newline, Tok.indent, Tok.id "b", Tok.newline,
        Tok.eof, Tok.dedent, Tok.eof] ∧
    [Tok.id "a", Tok.newline, Tok.indent, Tok.id "b", Tok.newline,
      Tok.eof, Tok.dedent, Tok.eof].count Tok.eof = 2 ∧
    ([Tok.id "a", Tok.newline, Tok.indent, Tok.id "b", Tok.newline,
      Tok.eof, Tok.dedent, Tok.eof].takeWhile (· != Tok.eof)).count
        Tok.indent = 1 ∧
    ([Tok.id "a", Tok.newline, Tok.indent, Tok.id "b", Tok.newline,
      Tok.eof, Tok.dedent, Tok.eof].takeWhile (· != Tok.eof)).count
        Tok.dedent = 0 := by
  refine ⟨?_, by decide, by decide, by decide⟩
  have h1 : parseLineStep ['a', '\n', ' ', ' ', 'b'] 0 =
      .ok (.emit [] [Tok.id "a", Tok.newline] [' ', ' ', 'b'] 0) := by
    have hrl : readLine ['a', '\n', ' ', ' ', 'b'] =
        .ok (0, [Tok.id "a", Tok.newline], [' ', ' ', 'b']) := by
      simp +decide [readLine, rll_ident, rll_newline, kwOrId]
    simp +decide [parseLineStep, hrl, isAllEof, isEmptyLine, indentDelta]
  have h2 : parseLineStep [' ', ' ', 'b'] 0 =
      .ok (.emit [Tok.indent] [Tok.id "b", Tok.newline, Tok.eof] [] 1) := by
    have hrl : readLine [' ', ' ', 'b'] =
        .ok (2, [Tok.id "b", Tok.newline, Tok.eof], []) := by
      simp +decide [readLine, rll_ident, readLineLoop_nil_spec, kwOrId,
        isEmptyLine, lastIsNewline]
    simp +decide [parseLineStep, hrl, isAllEof, isEmptyLine, indentDelta]
  rw [lexLines_emit h1, lexLines_emit h2, lexLines_finish (parseLineStep_nil 1)]
  rfl

/-- C2 (amended): the `Incorrect indent.` error is raised at a line if and
only if the line's leading-space count is odd — regardless of whether the
line is empty or comment-only; an empty (or comment-only) line with an
even leading-space count is skipped: it contributes no tokens and leaves
the current indent level unchanged.  (The original claim, under which
empty lines never raise, is refuted by `C2_counterexample`.) -/
theorem C2_indent_error_iff (input : List Char) (ind sp : Nat)
    (toks : List Tok) (rest : List Char)
    (h : readLine input = .ok (sp, toks, rest)) :
    ((parseLineStep input ind = .error .incorrectIndent) ↔ sp % 2 = 1) ∧
    (sp % 2 = 0 → isEmptyLine toks = true → isAllEof toks = false →
      parseLineStep input ind = .ok (.skip rest) ∧
      lexLines input ind = lexLines rest ind) := by
  have hps : parseLineStep input ind =
      (if sp % 2 ≠ 0 then .error .incorrectIndent
       else if !(isAllEof toks) && !(isEmptyLine toks) then
         .ok (.emit (indentDelta ind (sp / 2)) toks rest (sp / 2))
       else if isAllEof toks then
         .ok (.finish (List.replicate ind Tok.dedent ++ [Tok.eof]))
       else .ok (.skip rest)) := by
    unfold parseLineStep
    rw [h]
  by_cases hodd : sp % 2 ≠ 0
  · rw [hps, if_pos hodd]
    exact ⟨⟨fun _ => by omega, fun _ => rfl⟩, fun heven => by omega⟩
  · constructor
    · rw [hps, if_neg hodd]
      constructor
      · intro hcontra
        split at hcontra
        · cases hcontra
        · split at hcontra
          · cases hcontra
          · cases hcontra
      · intro h1
        omega
    · intro heven hemp hnae
      have hcond : ¬((!(isAllEof toks) && !(isEmptyLine toks)) = true) := by
        simp [hemp]
      have hcond2 : ¬(isAllEof toks = true) := by
        simp [hnae]
      have hstep : parseLineStep input ind = .ok (.skip rest) := by
        rw [hps, if_neg hodd, if_neg hcond, if_neg hcond2]
      exact ⟨hstep, lexLines_skip hstep⟩

/-- C2 witness: the amended characterization applied to the concrete line
`"  \n"` (two leading spaces, empty line): no error is raised and the line
is skipped with the indent state untouched. -/
theorem C2_indent_error_iff_witness :
    ((parseLineStep [' ', ' ', '\n'] 0 = .error .incorrectIndent) ↔
      (2 % 2 = 1)) ∧
    (2 % 2 = 0 → isEmptyLine [Tok.newline] = true →
      isAllEof [Tok.newline] = false →
      parseLineStep [' ', ' ', '\n'] 0 = .ok (.skip []) ∧
      lexLines [' ', ' ', '\n'] 0 = lexLines [] 0) :=
  C2_indent_error_iff [' ', ' ', '\n'] 0 2 [Tok.newline] []
    readLine_two_spaces_newline

/-- C2 counterexample: the line `" \n"` consists of a single space and a
newline — it is empty (its only token is `Newline`) and contains no
comment, yet `Lexer::ParseLine` raises `Incorrect indent.` because the
odd-leading-spaces check precedes the empty-line check. -/
theorem C2_counterexample :
    readLine [' ', '\n'] = .ok (1, [Tok.newline], []) ∧
    isEmptyLine [Tok.newline] = true ∧
    parseLineStep [' ', '\n'] 0 = .error .incorrectIndent := by
  refine ⟨readLine_space_newline, by decide, ?_⟩
  unfold parseLineStep
  rw [readLine_space_newline]
  rfl

/-! ## Runtime value model (`runtime.h` types as used by `runtime.cpp` and
`statement.cpp`)

The dynamic value universe.  Mutable `ClassInstance` objects live on an
explicit heap (`Heap`) and are referred to by address, which models the
C++ shared-ownership aliasing of instances (`ObjectHolder::Share` on an
instance is the same address).  `ObjectHolder` is `Option Value`: `none`
is the empty holder (`ObjectHolder::None`).  Ownership modes (`Own` vs
`Share`) affect only lifetimes, which the heap model erases; primitive
values are immutable so sharing them is observationally equal to owning
them. -/

/-- The two constructors of `ast::VariableValue` (`statement.cpp`): a
single name, or a chain of dot-separated identifiers. -/
inductive VarValue where
  | byName (name : String)
  | byDotted (dottedIds : List String)

/-- The comparator passed to `ast::Comparison`: one of the six functions
of `runtime.cpp` (`Equal`, `NotEqual`, `Less`, `Greater`, `LessOrEqual`,
`GreaterOrEqual`). -/
inductive Cmp where
  | eq
  | notEq
  | less
  | greater
  | lessOrEq
  | greaterOrEq

mutual

/-- The AST statement/expression nodes of `statement.cpp` that this
development reasons about (nodes not involved in any claim — `Print`,
`Stringify`, `Add`, `Sub`, `Mult`, `ClassDefinition`, `NewInstance` — are
omitted from the model). -/
inductive Stmt where
  | assign (name : String) (rv : Stmt)
  | var (v : VarValue)
  | methodCall (obj : Stmt) (method : String) (args : List Stmt)
  | div (lhs rhs : Stmt)
  | compound (stmts : List Stmt)
  | ret (stmt : Stmt)
  | fieldAssignment (obj : VarValue) (fieldName : String) (rv : Stmt)
  | ifElse (cond bodyIf : Stmt) (bodyElse : Option Stmt)
  | andStmt (lhs rhs : Stmt)
  | orStmt (lhs rhs : Stmt)
  | notStmt (arg : Stmt)
  | comparison (cmp : Cmp) (lhs rhs : Stmt)
  | methodBody (body : Stmt)

/-- Modelled from the spec: `runtime::Method` (its definition lives in `runtime.h`, which is not in the repository snapshot): a record of name, formal parameters, and owned body, as section 4.4 of the specification describes and `runtime.cpp` uses (`p_method->formal_params`, `p_method->body`). -/
inductive Method where
  | mk (name : String) (formalParams : List String) (body : Stmt)

/-- Model of `runtime::Class` (constructed in `runtime.cpp`): name, ordered method list, optional parent.  The
C++ parent is a non-owning pointer with the parent outliving the child;
classes are immutable after construction, so the parent is embedded by
value. -/
inductive Class where
  | mk (name : String) (methods : List Method) (parent : Option Class)

end

def Method.name : Method → String
  | .mk n _ _ => n

def Method.formalParams : Method → List String
  | .mk _ ps _ => ps

def Method.body : Method → Stmt
  | .mk _ _ b => b

def Class.methods : Class → List Method
  | .mk _ ms _ => ms

def Class.parent : Class → Option Class
  | .mk _ _ p => p

/-- Modelled from the spec: the runtime value universe (declared in the
absent `runtime.h`; spec section 3, Value): `Number` (C++ `int`, modelled
as `Int`), `Bool`, `String`, `Class`, `ClassInstance` (a heap address). -/
inductive Value where
  | num (value : Int)
  | bool (value : Bool)
  | str (value : String)
  | cls (value : Class)
  | inst (addr : Nat)

/-- Modelled from the spec: `runtime::ObjectHolder` (declared in the absent `runtime.h`): a nullable shared handle whose `TryAs<T>` is a type test returning an optional typed view (spec section 4.3); `none` is the empty
holder. -/
abbrev ObjectHolder := Option Value

/-- Modelled from the spec: `runtime::Closure` = `std::unordered_map<std::string, ObjectHolder>` (declared in the absent `runtime.h`; spec section 3, Environment):
keys unique, lookup by name, insertion overwrites. -/
abbrev Closure := List (String × ObjectHolder)

/-- Map lookup by key (`closure.count(n)` / `closure.at(n)`). -/
def cLookup : Closure → String → Option ObjectHolder
  | [], _ => none
  | (k, v) :: rest, n => if k = n then some v else cLookup rest n

/-- Map insertion (`closure[n] = v`): overwrite the existing binding for `n`, or append a
new one. -/
def cInsert : Closure → String → ObjectHolder → Closure
  | [], n, v => [(n, v)]
  | (k, w) :: rest, n, v =>
    if k = n then (k, v) :: rest else (k, w) :: cInsert rest n v

/-- The state of one `runtime::ClassInstance`: its class and its field
closure (`closure_`). -/
structure InstData where
  cls : Class
  fields : Closure

/-- The instance heap: address = list index.  Instances are created live
and never deallocated within a modelled execution. -/
abbrev Heap := List InstData

/-- Out-of-band outcomes of an evaluation:
`err` — a thrown `std::runtime_error` with its message;
`retSignal` — a thrown `ast::ExeptionWithObject` (the return signal),
caught only by `MethodBody`;
`crash` — a dereference of a null pointer obtained from a failed `TryAs`
downcast (undefined behaviour in the source; no handler catches it);
`fuelOut` — the interpreter's fuel ran out (a model artifact: the C++
program would keep recursing). -/
inductive Interrupt where
  | err (msg : String)
  | retSignal (obj : ObjectHolder)
  | crash
  | fuelOut

/-- Model of `runtime::IsTrue` (`runtime.cpp`): non-empty holders of a true Bool,
non-zero Number, or non-empty String are truthy; `Class` and
`ClassInstance` are always falsy; the empty holder is falsy.  (The
trailing `return true` of the source is unreachable: the value universe
is closed.) -/
def IsTrue : ObjectHolder → Bool
  | none => false
  | some (.bool b) => b
  | some (.num n) => n != 0
  | some (.str s) => s != ""
  | some (.cls _) => false
  | some (.inst _) => false

/-- Lookup in a class's own method table.  `Class::Class` builds
`methods_map_[name] = i` over the list in order, so a later method with a
duplicate name overwrites the entry: the last occurrence wins. -/
def findMethodLast (ms : List Method) (n : String) : Option Method :=
  ms.foldl (fun acc m => if m.name = n then some m else acc) none

/-- Model of `runtime::Class::GetMethod`: own table first, then the parent chain;
first class with a match wins. -/
def GetMethod : Class → String → Option Method
  | .mk _ ms parent, n =>
    match findMethodLast ms n with
    | some m => some m
    | none =>
      match parent with
      | some p => GetMethod p n
      | none => none

/-- Model of `runtime::ClassInstance::HasMethod`: the method resolves and its
formal-parameter count equals `argument_count`. -/
def HasMethod (cls : Class) (method : String) (argumentCount : Nat) : Bool :=
  match GetMethod cls method with
  | some m => m.formalParams.length == argumentCount
  | none => false

/-- The loop of `ClassInstance::Call` binding formal parameters to actual
arguments (`locals[formal_params.at(i)] = actual_args.at(i)`). -/
def bindParams (init : Closure) (ps : List String) (vs : List ObjectHolder) :
    Closure :=
  (ps.zip vs).foldl (fun c pv => cInsert c pv.1 pv.2) init

/-- The local scope built by `ClassInstance::Call`: `self` is bound first
(to a borrowing holder on the instance, i.e. its address), then each
formal parameter to the corresponding actual argument. -/
def callLocals (addr : Nat) (ps : List String) (vs : List ObjectHolder) :
    Closure :=
  bindParams (cInsert [] "self" (some (.inst addr))) ps vs

/-- Model of `ast::VariableValue::Execute` for the dotted chain: walk all but the
last identifier, requiring each intermediate value to be a
`ClassInstance` and descending into its field closure. -/
def walkDotted (heap : Heap) : Closure → List String → Except Interrupt ObjectHolder
  | _, [] => .error (.err "Unknown variable")
  | c, [x] =>
    match cLookup c x with
    | some o => .ok o
    | none => .error (.err ("Unknown variable " ++ x))
  | c, x :: y :: rest =>
    match cLookup c x with
    | none => .error (.err ("Unknown variable " ++ x))
    | some o =>
      match o with
      | some (.inst a) =>
        match heap[a]? with
        | some d => walkDotted heap d.fields (y :: rest)
        | none => .error .crash
      | _ => .error (.err "Instance is not a class")

/-- Model of `ast::VariableValue::Execute` (`statement.cpp`): the single-name
variant looks the name up in the local closure; the dotted variant walks
instance field scopes; a constructor argument that leaves both fields
empty throws `Unknown variable`. -/
def execVar (heap : Heap) (c : Closure) : VarValue → Except Interrupt ObjectHolder
  | .byName n =>
    if n ≠ "" then
      match cLookup c n with
      | some o => .ok o
      | none => .error (.err ("Unknown variable " ++ n))
    else .error (.err "Unknown variable")
  | .byDotted ids =>
    if ids ≠ [] then walkDotted heap c ids
    else .error (.err "Unknown variable")

/-! ## The evaluator (`statement.cpp` `Execute` methods and the
`runtime.cpp` comparison functions)

One fuel unit is consumed per call; `fuelOut` marks exhaustion (the C++
program recurses without such a bound).  Each function threads the local
closure (mutated by reference in the source) and the instance heap; both
are returned also on an interrupt, because `MethodBody` catches the
return signal after side effects have happened. -/

mutual

/-- Model of `Statement::Execute(closure, context)`, one case per modelled node,
translated branch-for-branch from `statement.cpp`. -/
def Execute : Nat → Stmt → Closure → Heap →
    (Except Interrupt ObjectHolder) × Closure × Heap
  | 0, _, c, hp => (.error .fuelOut, c, hp)
  | Nat.succ f, stmt, c, hp =>
    match stmt with
    | .assign name rv =>
      match Execute f rv c hp with
      | (.ok v, c1, h1) => (.ok v, cInsert c1 name v, h1)
      | r => r
    | .var v => (execVar hp c v, c, hp)
    | .methodCall obj method args =>
      match Execute f obj c hp with
      | (.ok o, c1, h1) =>
        match o with
        | some (.inst addr) =>
          match h1[addr]? with
          | none => (.error .crash, c1, h1)
          | some d =>
            if HasMethod d.cls method args.length then
              match execArgs f args c1 h1 with
              | (.ok vs, c2, h2) =>
                match Call f addr method vs h2 with
                | (r, h3) => (r, c2, h3)
              | (.error e, c2, h2) => (.error e, c2, h2)
            else (.ok none, c1, h1)
        | _ => (.ok none, c1, h1)
      | r => r
    | .div lhs rhs =>
      match Execute f lhs c hp with
      | (.ok v1, c1, h1) =>
        match Execute f rhs c1 h1 with
        | (.ok v2, c2, h2) =>
          match v1, v2 with
          | some (.num a), some (.num b) =>
            if b ≠ 0 then (.ok (some (.num (Int.tdiv a b))), c2, h2)
            else (.error (.err "Division is not implemented for these operands"),
              c2, h2)
          | _, _ =>
            (.error (.err "Division is not implemented for these operands"),
              c2, h2)
        | r2 => r2
      | r1 => r1
    | .compound stmts => execSeq f stmts c hp
    | .ret s =>
      match Execute f s c hp with
      | (.ok v, c1, h1) => (.error (.retSignal v), c1, h1)
      | r => r
    | .fieldAssignment obj fieldName rv =>
      match execVar hp c obj with
      | .error e => (.error e, c, hp)
      | .ok o =>
        match o with
        | some (.inst addr) =>
          match hp[addr]? with
          | none => (.error .crash, c, hp)
          | some _ =>
            match Execute f rv c hp with
            | (.ok w, c1, h1) =>
              match h1[addr]? with
              | some d1 =>
                (.ok w, c1,
                  h1.set addr { d1 with fields := cInsert d1.fields fieldName w })
              | none => (.error .crash, c1, h1)
            | r => r
        | _ => (.error .crash, c, hp)
    | .ifElse cond bodyIf bodyElse =>
      match Execute f cond c hp with
      | (.ok v, c1, h1) =>
        if IsTrue v then Execute f bodyIf c1 h1
        else
          match bodyElse with
          | some es => Execute f es c1 h1
          | none => (.ok none, c1, h1)
      | r => r
    | .orStmt lhs rhs =>
      match Execute f lhs c hp with
      | (.ok v1, c1, h1) =>
        match Execute f rhs c1 h1 with
        | (.ok v2, c2, h2) =>
          if v1.isSome && v2.isSome then
            (.ok (some (.bool (IsTrue v1 || IsTrue v2))), c2, h2)
          else
            (.error (.err "'Or' is not implemented for these operands"),
              c2, h2)
        | r2 => r2
      | r1 => r1
    | .andStmt lhs rhs =>
      match Execute f lhs c hp with
      | (.ok v1, c1, h1) =>
        match Execute f rhs c1 h1 with
        | (.ok v2, c2, h2) =>
          if v1.isSome && v2.isSome then
            (.ok (some (.bool (IsTrue v1 && IsTrue v2))), c2, h2)
          else
            (.error (.err "'And' is not implemented for these operands"),
              c2, h2)
        | r2 => r2
      | r1 => r1
    | .notStmt arg =>
      match Execute f arg c hp with
      | (.ok v, c1, h1) =>
        if v.isSome then (.ok (some (.bool (!IsTrue v))), c1, h1)
        else
          (.error (.err "'Not' is not implemented for this argument"), c1, h1)
      | r => r
    | .comparison cmp lhs rhs =>
      match Execute f lhs c hp with
      | (.ok v1, c1, h1) =>
        match Execute f rhs c1 h1 with
        | (.ok v2, c2, h2) =>
          match cmpApply f cmp v1 v2 h2 with
          | (.ok b, h3) => (.ok (some (.bool b)), c2, h3)
          | (.error e, h3) => (.error e, c2, h3)
        | r2 => r2
      | r1 => r1
    | .methodBody body =>
      match Execute f body c hp with
      | (.error (.retSignal o), c1, h1) => (.ok o, c1, h1)
      | (.ok _, c1, h1) => (.ok none, c1, h1)
      | r => r

/-- Left-to-right evaluation of `MethodCall` argument expressions
(`args_executed` loop). -/
def execArgs : Nat → List Stmt → Closure → Heap →
    (Except Interrupt (List ObjectHolder)) × Closure × Heap
  | 0, _, c, hp => (.error .fuelOut, c, hp)
  | Nat.succ f, [], c, hp => (.ok [], c, hp)
  | Nat.succ f, a :: rest, c, hp =>
    match Execute f a c hp with
    | (.ok v, c1, h1) =>
      match execArgs f rest c1 h1 with
      | (.ok vs, c2, h2) => (.ok (v :: vs), c2, h2)
      | (.error e, c2, h2) => (.error e, c2, h2)
    | (.error e, c1, h1) => (.error e, c1, h1)

/-- In-order execution of a `Compound`'s children, returning `None`. -/
def execSeq : Nat → List Stmt → Closure → Heap →
    (Except Interrupt ObjectHolder) × Closure × Heap
  | 0, _, c, hp => (.error .fuelOut, c, hp)
  | Nat.succ f, [], c, hp => (.ok none, c, hp)
  | Nat.succ f, s :: rest, c, hp =>
    match Execute f s c hp with
    | (.ok _, c1, h1) => execSeq f rest c1 h1
    | r => r

/-- Model of `runtime::ClassInstance::Call`: resolve the method by name and arity
(else throw `Error call <name>.`), build the local scope with `self`
bound first and the formals after, and execute the body in it.  The
method's own locals are discarded when the call returns. -/
def Call : Nat → Nat → String → List ObjectHolder → Heap →
    (Except Interrupt ObjectHolder) × Heap
  | 0, _, _, _, hp => (.error .fuelOut, hp)
  | Nat.succ f, addr, method, actuals, hp =>
    match hp[addr]? with
    | none => (.error .crash, hp)
    | some d =>
      if HasMethod d.cls method actuals.length then
        match GetMethod d.cls method with
        | some m =>
          match Execute f m.body (callLocals addr m.formalParams actuals) hp with
          | (r, _, h') => (r, h')
        | none => (.error .crash, hp)
      else (.error (.err ("Error call " ++ method ++ ".")), hp)

/-- Model of `runtime::Equal` (`runtime.cpp`): payload comparison for same-typed
`Bool`/`Number`/`String` pairs; else a `ClassInstance` lhs with
`__eq__`/arity 1 dispatches it and unwraps the result with an unchecked
`TryAs<Bool>()->GetValue()` (a non-Bool or empty result is a null
dereference, `crash`); else two empty holders compare equal; anything
else throws `Cannot compare objects for equality`. -/
def Equal : Nat → ObjectHolder → ObjectHolder → Heap →
    (Except Interrupt Bool) × Heap
  | 0, _, _, hp => (.error .fuelOut, hp)
  | Nat.succ f, lhs, rhs, hp =>
    match lhs, rhs with
    | some (.bool a), some (.bool b) => (.ok (a == b), hp)
    | some (.num a), some (.num b) => (.ok (a == b), hp)
    | some (.str a), some (.str b) => (.ok (a == b), hp)
    | some (.inst addr), _ =>
      match hp[addr]? with
      | none => (.error .crash, hp)
      | some d =>
        if HasMethod d.cls "__eq__" 1 then
          match Call f addr "__eq__" [rhs] hp with
          | (.ok o, hp') =>
            match o with
            | some (.bool b) => (.ok b, hp')
            | _ => (.error .crash, hp')
          | (.error e, hp') => (.error e, hp')
        else (.error (.err "Cannot compare objects for equality"), hp)
    | none, none => (.ok true, hp)
    | _, _ => (.error (.err "Cannot compare objects for equality"), hp)

/-- Model of `runtime::Less` (`runtime.cpp`): `false < true` for Bools, integer
`<` for Numbers, lexicographic `<` for Strings; else a `ClassInstance`
lhs with `__lt__`/arity 1 dispatches it with the same unchecked Bool
unwrap; anything else throws `Cannot compare objects for less`. -/
def Less : Nat → ObjectHolder → ObjectHolder → Heap →
    (Except Interrupt Bool) × Heap
  | 0, _, _, hp => (.error .fuelOut, hp)
  | Nat.succ f, lhs, rhs, hp =>
    match lhs, rhs with
    | some (.bool a), some (.bool b) => (.ok (!a && b), hp)
    | some (.num a), some (.num b) => (.ok (decide (a < b)), hp)
    | some (.str a), some (.str b) => (.ok (decide (a < b)), hp)
    | some (.inst addr), _ =>
      match hp[addr]? with
      | none => (.error .crash, hp)
      | some d =>
        if HasMethod d.cls "__lt__" 1 then
          match Call f addr "__lt__" [rhs] hp with
          | (.ok o, hp') =>
            match o with
            | some (.bool b) => (.ok b, hp')
            | _ => (.error .crash, hp')
          | (.error e, hp') => (.error e, hp')
        else (.error (.err "Cannot compare objects for less"), hp)
    | _, _ => (.error (.err "Cannot compare objects for less"), hp)

/-- Model of `runtime::NotEqual`: `!Equal(lhs, rhs, context)`. -/
def NotEqual : Nat → ObjectHolder → ObjectHolder → Heap →
    (Except Interrupt Bool) × Heap
  | 0, _, _, hp => (.error .fuelOut, hp)
  | Nat.succ f, lhs, rhs, hp =>
    match Equal f lhs rhs hp with
    | (.ok b, hp') => (.ok (!b), hp')
    | (.error e, hp') => (.error e, hp')

/-- Model of `runtime::Greater`: `!Less(...) && NotEqual(...)`, with the C++ `&&`
short circuit: when `Less` is true, `NotEqual` (hence `Equal`) is not
called. -/
def Greater : Nat → ObjectHolder → ObjectHolder → Heap →
    (Except Interrupt Bool) × Heap
  | 0, _, _, hp => (.error .fuelOut, hp)
  | Nat.succ f, lhs, rhs, hp =>
    match Less f lhs rhs hp with
    | (.ok true, hp') => (.ok false, hp')
    | (.ok false, hp') =>
      match NotEqual f lhs rhs hp' with
      | (.ok b, hp'') => (.ok b, hp'')
      | (.error e, hp'') => (.error e, hp'')
    | (.error e, hp') => (.error e, hp')

/-- Model of `runtime::LessOrEqual`: `!Greater(...)`. -/
def LessOrEqual : Nat → ObjectHolder → ObjectHolder → Heap →
    (Except Interrupt Bool) × Heap
  | 0, _, _, hp => (.error .fuelOut, hp)
  | Nat.succ f, lhs, rhs, hp =>
    match Greater f lhs rhs hp with
    | (.ok b, hp') => (.ok (!b), hp')
    | (.error e, hp') => (.error e, hp')

/-- Model of `runtime::GreaterOrEqual`: `!Less(...)`. -/
def GreaterOrEqual : Nat → ObjectHolder → ObjectHolder → Heap →
    (Except Interrupt Bool) × Heap
  | 0, _, _, hp => (.error .fuelOut, hp)
  | Nat.succ f, lhs, rhs, hp =>
    match Less f lhs rhs hp with
    | (.ok b, hp') => (.ok (!b), hp')
    | (.error e, hp') => (.error e, hp')

/-- Dispatch of the `Comparison` node's comparator (`cmp_`). -/
def cmpApply : Nat → Cmp → ObjectHolder → ObjectHolder → Heap →
    (Except Interrupt Bool) × Heap
  | 0, _, _, _, hp => (.error .fuelOut, hp)
  | Nat.succ f, .eq, lhs, rhs, hp => Equal f lhs rhs hp
  | Nat.succ f, .notEq, lhs, rhs, hp => NotEqual f lhs rhs hp
  | Nat.succ f, .less, lhs, rhs, hp => Less f lhs rhs hp
  | Nat.succ f, .greater, lhs, rhs, hp => Greater f lhs rhs hp
  | Nat.succ f, .lessOrEq, lhs, rhs, hp => LessOrEqual f lhs rhs hp
  | Nat.succ f, .greaterOrEq, lhs, rhs, hp => GreaterOrEqual f lhs rhs hp

end

/-! ## Statement-support helpers for the runtime claims -/

/-- The operand pairs `Equal` and `Less` compare by payload: both `Bool`,
both `Number`, or both `String`. -/
def primPair : ObjectHolder → ObjectHolder → Bool
  | some (.bool _), some (.bool _) => true
  | some (.num _), some (.num _) => true
  | some (.str _), some (.str _) => true
  | _, _ => false

/-- Both operands are `Number` holders (the happy path of `Div`). -/
def bothNums : ObjectHolder → ObjectHolder → Bool
  | some (.num _), some (.num _) => true
  | _, _ => false

theorem cLookup_cInsert (c : Closure) (n : String) (v : ObjectHolder)
    (k : String) :
    cLookup (cInsert c n v) k = if n = k then some v else cLookup c k := by
  induction c with
  | nil =>
    simp only [cInsert, cLookup]
  | cons p rest ih =>
    obtain ⟨a, w⟩ := p
    by_cases han : a = n
    · subst han
      by_cases hak : a = k
      · subst hak
        simp [cInsert, cLookup]
      · simp [cInsert, cLookup, hak]
    · by_cases hak : a = k
      · subst hak
        have hnk : ¬n = a := fun h => han h.symm
        simp [cInsert, cLookup, han, hnk]
      · simp [cInsert, cLookup, han, hak, ih]

theorem cLookup_bindParams (l : List (String × ObjectHolder))
    (init : Closure) (k : String) :
    cLookup (l.foldl (fun c pv => cInsert c pv.1 pv.2) init) k =
      (match l.reverse.find? (fun pv => pv.1 == k) with
       | some pv => some pv.2
       | none => cLookup init k) := by
  induction l generalizing init with
  | nil => simp
  | cons p l ih =>
    obtain ⟨a, w⟩ := p
    simp only [List.foldl_cons, List.reverse_cons, List.find?_append, ih]
    cases hx : l.reverse.find? (fun pv => pv.1 == k) with
    | some pv => rfl
    | none =>
      simp only [Option.none_or]
      rw [cLookup_cInsert]
      by_cases hak : a = k
      · subst hak
        simp
      · simp only [if_neg hak, List.find?]
        have : ((a, w).1 == k) = false := by
          simp [hak]
        rw [this]

/-! ## Claims about the runtime and the evaluator -/

/-- C3: `FieldAssignment::Execute` performs
`obj.TryAs<runtime::ClassInstance>()->Fields()` without checking the
downcast.  When the object expression evaluates to a `ClassInstance`, the
assignment is performed on its field scope and the assigned holder is
returned (second conjunct); but when it evaluates to anything else the
null `TryAs` result is dereferenced — undefined behaviour, not a thrown
runtime error, so no error propagates upward (first conjunct: the outcome
is `crash`, not `err`). -/
theorem C3_fieldAssignment_null_deref :
    Execute 2 (.fieldAssignment (.byName "x") "f" (.var (.byName "x")))
        [("x", some (.num 1))] [] =
      (.error .crash, [("x", some (.num 1))], []) ∧
    Execute 2 (.fieldAssignment (.byName "x") "f" (.var (.byName "y")))
        [("x", some (.inst 0)), ("y", some (.num 5))]
        [⟨Class.mk "C" [] none, []⟩] =
      (.ok (some (.num 5)),
       [("x", some (.inst 0)), ("y", some (.num 5))],
       [⟨Class.mk "C" [] none, [("f", some (.num 5))]⟩]) :=
  ⟨rfl, rfl⟩

/-- C4: case analysis of `runtime::Equal`: payload equality for same-typed
`Bool`/`Number`/`String` pairs; dispatch of `__eq__`/arity 1 on a
`ClassInstance` lhs, returning the Bool produced by the dispatch; `true`
for two empty holders; and the runtime error
`Cannot compare objects for equality` in every remaining case (instance
lhs without a matching `__eq__`, and any other combination). -/
theorem C4_equal_spec :
    (∀ (f : Nat) (a b : Bool) (hp : Heap),
      Equal (f + 1) (some (.bool a)) (some (.bool b)) hp = (.ok (a == b), hp)) ∧
    (∀ (f : Nat) (a b : Int) (hp : Heap),
      Equal (f + 1) (some (.num a)) (some (.num b)) hp = (.ok (a == b), hp)) ∧
    (∀ (f : Nat) (a b : String) (hp : Heap),
      Equal (f + 1) (some (.str a)) (some (.str b)) hp = (.ok (a == b), hp)) ∧
    (∀ (f addr : Nat) (r : ObjectHolder) (hp : Heap) (d : InstData)
        (b : Bool) (hp' : Heap),
      hp[addr]? = some d → HasMethod d.cls "__eq__" 1 = true →
      Call f addr "__eq__" [r] hp = (.ok (some (.bool b)), hp') →
      Equal (f + 1) (some (.inst addr)) r hp = (.ok b, hp')) ∧
    (∀ (f : Nat) (hp : Heap),
      Equal (f + 1) (none : ObjectHolder) none hp = (.ok true, hp)) ∧
    (∀ (f addr : Nat) (r : ObjectHolder) (hp : Heap) (d : InstData),
      hp[addr]? = some d → HasMethod d.cls "__eq__" 1 = false →
      Equal (f + 1) (some (.inst addr)) r hp =
        (.error (.err "Cannot compare objects for equality"), hp)) ∧
    (∀ (f : Nat) (l r : ObjectHolder) (hp : Heap),
      primPair l r = false → (∀ a, l ≠ some (.inst a)) →
      ¬(l = none ∧ r = none) →
      Equal (f + 1) l r hp =
        (.error (.err "Cannot compare objects for equality"), hp)) := by
  refine ⟨fun f a b hp => rfl, fun f a b hp => rfl, fun f a b hp => rfl,
    ?_, fun f hp => rfl, ?_, ?_⟩
  · intro f addr r hp d b hp' hd hm hcall
    simp only [Equal, hd, hm, hcall]
    rfl
  · intro f addr r hp d hd hm
    simp only [Equal, hd, hm]
    rfl
  · intro f l r hp hprim hninst hne
    rcases l with _ | v1
    · rcases r with _ | v2
      · exact absurd ⟨rfl, rfl⟩ hne
      · cases v2 <;> rfl
    · rcases r with _ | v2
      · cases v1 with
        | num a => rfl
        | bool a => rfl
        | str a => rfl
        | cls a => rfl
        | inst a => exact absurd rfl (hninst a)
      · cases v1 <;> cases v2 <;>
          first
          | rfl
          | (exact absurd rfl (hninst _))
          | (simp [primPair] at hprim)

/-- C4 witness: `Equal` at the concrete pairs `Number 2 = Number 2` and
`none = none`. -/
theorem C4_equal_spec_witness :
    Equal 1 (some (.num 2)) (some (.num 2)) [] = (.ok true, []) ∧
    Equal 1 (none : ObjectHolder) none [] = (.ok true, []) :=
  ⟨C4_equal_spec.2.1 0 2 2 [], C4_equal_spec.2.2.2.2.1 0 []⟩

/-- C5: `Div::Execute` divides only when both operands evaluate to
`Number` holders and the divisor is non-zero; division by zero and any
non-Number operand raise the same runtime error, with the identical
diagnostic `Division is not implemented for these operands` (no distinct
division-by-zero message). -/
theorem C5_div_spec (f : Nat) (l r : Stmt) (c : Closure) (hp : Heap)
    (v1 : ObjectHolder) (c1 : Closure) (h1 : Heap)
    (v2 : ObjectHolder) (c2 : Closure) (h2 : Heap)
    (hl : Execute f l c hp = (.ok v1, c1, h1))
    (hr : Execute f r c1 h1 = (.ok v2, c2, h2)) :
    (∀ (a b : Int), v1 = some (.num a) → v2 = some (.num b) → b ≠ 0 →
      Execute (f + 1) (.div l r) c hp =
        (.ok (some (.num (Int.tdiv a b))), c2, h2)) ∧
    (∀ (a : Int), v1 = some (.num a) → v2 = some (.num 0) →
      Execute (f + 1) (.div l r) c hp =
        (.error (.err "Division is not implemented for these operands"),
          c2, h2)) ∧
    (bothNums v1 v2 = false →
      Execute (f + 1) (.div l r) c hp =
        (.error (.err "Division is not implemented for these operands"),
          c2, h2)) := by
  refine ⟨?_, ?_, ?_⟩
  · intro a b ha hb hnz
    simp only [Execute, hl, hr, ha, hb]
    rw [if_pos hnz]
  · intro a ha hb
    simp only [Execute, hl, hr, ha, hb]
    norm_num
  · intro hnn
    simp only [Execute, hl, hr]
    rcases v1 with _ | w1
    · rcases v2 with _ | w2
      · rfl
      · cases w2 <;> rfl
    · rcases v2 with _ | w2
      · cases w1 <;> rfl
      · cases w1 <;> cases w2 <;>
          first
          | rfl
          | (simp [bothNums] at hnn)

/-- C5 witness: `6 / 3` yields `Number 2`; `1 / 0` raises the shared
diagnostic. -/
theorem C5_div_spec_witness :
    Execute 2 (.div (.var (.byName "x")) (.var (.byName "y")))
        [("x", some (.num 6)), ("y", some (.num 3))] [] =
      (.ok (some (.num 2)),
        [("x", some (.num 6)), ("y", some (.num 3))], []) ∧
    Execute 2 (.div (.var (.byName "x")) (.var (.byName "y")))
        [("x", some (.num 1)), ("y", some (.num 0))] [] =
      (.error (.err "Division is not implemented for these operands"),
        [("x", some (.num 1)), ("y", some (.num 0))], []) :=
 by
  have hgood := C5_div_spec 1 (.var (.byName "x")) (.var (.byName "y"))
    [("x", some (.num 6)), ("y", some (.num 3))] []
    (some (.num 6)) [("x", some (.num 6)), ("y", some (.num 3))] []
    (some (.num 3)) [("x", some (.num 6)), ("y", some (.num 3))] [] rfl rfl
  have hzero := C5_div_spec 1 (.var (.byName "x")) (.var (.byName "y"))
    [("x", some (.num 1)), ("y", some (.num 0))] []
    (some (.num 1)) [("x", some (.num 1)), ("y", some (.num 0))] []
    (some (.num 0)) [("x", some (.num 1)), ("y", some (.num 0))] [] rfl rfl
  exact ⟨hgood.1 6 3 rfl rfl (by norm_num), hzero.2.1 1 rfl rfl⟩

/-- C6: `MethodCall::Execute` first evaluates the receiver; when it is a
`ClassInstance` with a method of the given name and matching arity, the
arguments are evaluated left-to-right (`execArgs`) and the method is
dispatched; in every other case — non-instance receiver (first conjunct)
or missing method / arity mismatch (second conjunct) — the node returns
the empty holder without raising, and the argument expressions are not
evaluated: the result is the same for every argument list, with the state
exactly as the receiver evaluation left it. -/
theorem C6_methodCall_spec (f : Nat) (obj : Stmt) (m : String)
    (args : List Stmt) (c : Closure) (hp : Heap)
    (o : ObjectHolder) (c1 : Closure) (h1 : Heap)
    (hobj : Execute f obj c hp = (.ok o, c1, h1)) :
    ((∀ a, o ≠ some (.inst a)) →
      Execute (f + 1) (.methodCall obj m args) c hp = (.ok none, c1, h1)) ∧
    (∀ addr d, o = some (.inst addr) → h1[addr]? = some d →
      HasMethod d.cls m args.length = false →
      Execute (f + 1) (.methodCall obj m args) c hp = (.ok none, c1, h1)) ∧
    (∀ addr d vs c2 h2 res h3, o = some (.inst addr) → h1[addr]? = some d →
      HasMethod d.cls m args.length = true →
      execArgs f args c1 h1 = (.ok vs, c2, h2) →
      Call f addr m vs h2 = (res, h3) →
      Execute (f + 1) (.methodCall obj m args) c hp = (res, c2, h3)) := by
  refine ⟨?_, ?_, ?_⟩
  · intro hninst
    rcases o with _ | v
    · simp only [Execute, hobj]
    · cases v with
      | num a => simp only [Execute, hobj]
      | bool a => simp only [Execute, hobj]
      | str a => simp only [Execute, hobj]
      | cls a => simp only [Execute, hobj]
      | inst a => exact absurd rfl (hninst a)
  · intro addr d ho hd hm
    subst ho
    simp only [Execute, hobj, hd, hm]
    rfl
  · intro addr d vs c2 h2 res h3 ho hd hm hargs hcall
    subst ho
    simp only [Execute, hobj, hd, hm, hargs, hcall]
    rfl

/-- C6 witness: a `Number` receiver: the call yields the empty holder with
no error, although the argument expression (an unknown variable) would
raise if it were evaluated. -/
theorem C6_methodCall_spec_witness :
    Execute 2 (.methodCall (.var (.byName "x")) "m" [.var (.byName "zzz")])
        [("x", some (.num 1))] [] =
      (.ok none, [("x", some (.num 1))], []) :=
  (C6_methodCall_spec 1 (.var (.byName "x")) "m" [.var (.byName "zzz")]
    [("x", some (.num 1))] [] (some (.num 1)) [("x", some (.num 1))] []
    rfl).1 (fun a h => by cases h)

/-- C7: `And::Execute` and `Or::Execute` evaluate both operand expressions
unconditionally — an interrupt raised by the right-hand side propagates
even when the left-hand value alone already determines the result (second
conjunct, with no hypothesis on `IsTrue v1`).  When both evaluations
succeed: two non-empty holders produce an owning `Bool` holder of the
conjunction/disjunction of their `IsTrue` values, and an empty holder on
either side raises a runtime error. -/
theorem C7_andOr_spec (f : Nat) (l r : Stmt) (c : Closure) (hp : Heap)
    (v1 : ObjectHolder) (c1 : Closure) (h1 : Heap)
    (hl : Execute f l c hp = (.ok v1, c1, h1)) :
    (∀ v2 c2 h2, Execute f r c1 h1 = (.ok v2, c2, h2) →
      (v1.isSome = true → v2.isSome = true →
        Execute (f + 1) (.andStmt l r) c hp =
          (.ok (some (.bool (IsTrue v1 && IsTrue v2))), c2, h2) ∧
        Execute (f + 1) (.orStmt l r) c hp =
          (.ok (some (.bool (IsTrue v1 || IsTrue v2))), c2, h2)) ∧
      ((v1.isSome = false ∨ v2.isSome = false) →
        Execute (f + 1) (.andStmt l r) c hp =
          (.error (.err "'And' is not implemented for these operands"),
            c2, h2) ∧
        Execute (f + 1) (.orStmt l r) c hp =
          (.error (.err "'Or' is not implemented for these operands"),
            c2, h2))) ∧
    (∀ e c2 h2, Execute f r c1 h1 = (.error e, c2, h2) →
      Execute (f + 1) (.andStmt l r) c hp = (.error e, c2, h2) ∧
      Execute (f + 1) (.orStmt l r) c hp = (.error e, c2, h2)) := by
  constructor
  · intro v2 c2 h2 hr
    constructor
    · intro hs1 hs2
      constructor
      · simp only [Execute, hl, hr, hs1, hs2]
        rfl
      · simp only [Execute, hl, hr, hs1, hs2]
        rfl
    · intro hor
      rcases hor with hs | hs
      · constructor
        · simp only [Execute, hl, hr, hs]
          rfl
        · simp only [Execute, hl, hr, hs]
          rfl
      · constructor
        · simp only [Execute, hl, hr, hs, Bool.and_false]
          rfl
        · simp only [Execute, hl, hr, hs, Bool.and_false]
          rfl
  · intro e c2 h2 hr
    constructor
    · simp only [Execute, hl, hr]
    · simp only [Execute, hl, hr]

/-- C7 witness: with a false left operand (`Bool false`), `And` still
evaluates the right operand: the unknown-variable error it raises
propagates instead of a short-circuited `false` result. -/
theorem C7_andOr_spec_witness :
    Execute 2 (.andStmt (.var (.byName "x")) (.var (.byName "zzz")))
        [("x", some (.bool false))] [] =
      (.error (.err "Unknown variable zzz"),
        [("x", some (.bool false))], []) ∧
    Execute 2 (.orStmt (.var (.byName "x")) (.var (.byName "zzz")))
        [("x", some (.bool false))] [] =
      (.error (.err "Unknown variable zzz"),
        [("x", some (.bool false))], []) :=
  (C7_andOr_spec 1 (.var (.byName "x")) (.var (.byName "zzz"))
    [("x", some (.bool false))] [] (some (.bool false))
    [("x", some (.bool false))] [] rfl).2
    (.err "Unknown variable zzz") [("x", some (.bool false))] [] rfl

/-- C8: the derived comparison functions of `runtime.cpp`, whenever the
underlying `Equal` and `Less` calls return a value:
`NotEqual = !Equal`; `Greater = !Less && NotEqual` (with the `&&`
short-circuit: a true `Less` yields `false` without consulting `Equal`);
`LessOrEqual = !Greater`; `GreaterOrEqual = !Less`. -/
theorem C8_derived_comparators (l r : ObjectHolder) (hp : Heap) :
    (∀ f b hp', Equal f l r hp = (.ok b, hp') →
      NotEqual (f + 1) l r hp = (.ok (!b), hp')) ∧
    (∀ f hp', Less f l r hp = (.ok true, hp') →
      Greater (f + 1) l r hp = (.ok false, hp')) ∧
    (∀ f hp' b hp'', Less (f + 1) l r hp = (.ok false, hp') →
      Equal f l r hp' = (.ok b, hp'') →
      Greater (f + 2) l r hp = (.ok (!b), hp'')) ∧
    (∀ f g hp', Greater f l r hp = (.ok g, hp') →
      LessOrEqual (f + 1) l r hp = (.ok (!g), hp')) ∧
    (∀ f b hp', Less f l r hp = (.ok b, hp') →
      GreaterOrEqual (f + 1) l r hp = (.ok (!b), hp')) := by
  refine ⟨?_, ?_, ?_, ?_, ?_⟩
  · intro f b hp' he
    simp only [NotEqual, he]
  · intro f hp' hles
    simp only [Greater, hles]
  · intro f hp' b hp'' hles he
    simp only [Greater, hles, NotEqual, he]
  · intro f g hp' hg
    simp only [LessOrEqual, hg]
  · intro f b hp' hles
    simp only [GreaterOrEqual, hles]

/-- C8 witness: the derived comparators at the concrete Numbers 2 and 3:
`NotEqual 2 3 = true` and `GreaterOrEqual 2 3 = false`. -/
theorem C8_derived_comparators_witness :
    NotEqual 2 (some (.num 2)) (some (.num 3)) [] = (.ok true, []) ∧
    GreaterOrEqual 2 (some (.num 2)) (some (.num 3)) [] = (.ok false, []) :=
  ⟨(C8_derived_comparators (some (.num 2)) (some (.num 3)) []).1 1 false []
      rfl,
   (C8_derived_comparators (some (.num 2)) (some (.num 3)) []).2.2.2.2 1
      true [] rfl⟩

/-- C9: `ClassInstance::Call` builds the local scope by binding `self`
first and the formal parameters afterwards (`callLocals`).  First
conjunct: the binding visible under the name `self` is the actual
argument of the last formal literally named `self` when one exists, and
only otherwise the receiver instance.  Second conjunct, the observable
consequence: a method whose single formal parameter is named `self` and
whose body is `return self` returns the call's argument, not the
instance it was invoked on. -/
theorem C9_call_self_binding :
    (∀ (addr : Nat) (ps : List String) (vs : List ObjectHolder),
      cLookup (callLocals addr ps vs) "self" =
        some (match (ps.zip vs).reverse.find? (fun pv => pv.1 == "self") with
              | some pv => pv.2
              | none => some (.inst addr))) ∧
    (∀ (f addr : Nat) (m : String) (v : ObjectHolder) (hp : Heap)
        (d : InstData) (meth : Method),
      hp[addr]? = some d → GetMethod d.cls m = some meth →
      meth.formalParams = ["self"] →
      meth.body = .methodBody (.ret (.var (.byName "self"))) →
      Call (f + 4) addr m [v] hp = (.ok v, hp)) := by
  constructor
  · intro addr ps vs
    unfold callLocals bindParams
    rw [cLookup_bindParams]
    cases hx : (ps.zip vs).reverse.find? (fun pv => pv.1 == "self") with
    | some pv => rfl
    | none => rfl
  · intro f addr m v hp d meth hd hgm hps hbody
    have hhm : HasMethod d.cls m 1 = true := by
      simp [HasMethod, hgm, hps]
    have hlook : cLookup (callLocals addr ["self"] [v]) "self" = some v := rfl
    simp only [Call, hd, List.length_cons, List.length_nil, hhm, hgm, hps,
      hbody]
    simp only [Execute, execVar, hlook]
    rfl

/-- C9 witness: calling `m(self): return self` on instance 0 with the
argument `Number 7` returns `Number 7`, not the instance. -/
theorem C9_call_self_binding_witness :
    Call 4 0 "m" [some (.num 7)]
        [⟨Class.mk "C"
            [Method.mk "m" ["self"]
              (.methodBody (.ret (.var (.byName "self"))))] none, []⟩] =
      (.ok (some (.num 7)),
        [⟨Class.mk "C"
            [Method.mk "m" ["self"]
              (.methodBody (.ret (.var (.byName "self"))))] none, []⟩]) :=
  C9_call_self_binding.2 0 0 "m" (some (.num 7)) _ _ _ rfl rfl rfl rfl

/-- C10: when `Equal` (resp. `Less`) dispatches a user-defined `__eq__`
(resp. `__lt__`) of arity 1 on a `ClassInstance` lhs, the result is
unwrapped by `TryAs<Bool>()->GetValue()` with no check: the comparison
succeeds exactly when the dunder call returns a non-empty `Bool` holder;
a non-Bool or empty result dereferences the null typed view (`crash`)
instead of reaching the `Cannot compare` error branch (`crash` is not a
thrown runtime error). -/
theorem C10_dunder_unchecked_unwrap (f addr : Nat) (r : ObjectHolder)
    (hp : Heap) (d : InstData) (hd : hp[addr]? = some d) :
    (HasMethod d.cls "__eq__" 1 = true →
      (∀ b hp', Call f addr "__eq__" [r] hp = (.ok (some (.bool b)), hp') →
        Equal (f + 1) (some (.inst addr)) r hp = (.ok b, hp')) ∧
      (∀ o hp', Call f addr "__eq__" [r] hp = (.ok o, hp') →
        (∀ b, o ≠ some (.bool b)) →
        Equal (f + 1) (some (.inst addr)) r hp = (.error .crash, hp'))) ∧
    (HasMethod d.cls "__lt__" 1 = true →
      (∀ b hp', Call f addr "__lt__" [r] hp = (.ok (some (.bool b)), hp') →
        Less (f + 1) (some (.inst addr)) r hp = (.ok b, hp')) ∧
      (∀ o hp', Call f addr "__lt__" [r] hp = (.ok o, hp') →
        (∀ b, o ≠ some (.bool b)) →
        Less (f + 1) (some (.inst addr)) r hp = (.error .crash, hp'))) ∧
    (∀ msg, Interrupt.crash ≠ Interrupt.err msg) := by
  refine ⟨fun hm => ⟨?_, ?_⟩, fun hm => ⟨?_, ?_⟩, fun msg h => by cases h⟩
  · intro b hp' hcall
    simp only [Equal, hd, hm, hcall]
    rfl
  · intro o hp' hcall hnb
    simp only [Equal, hd, hm, hcall]
    rcases o with _ | w
    · rfl
    · cases w with
      | num a => rfl
      | bool a => exact absurd rfl (hnb a)
      | str a => rfl
      | cls a => rfl
      | inst a => rfl
  · intro b hp' hcall
    simp only [Less, hd, hm, hcall]
    rfl
  · intro o hp' hcall hnb
    simp only [Less, hd, hm, hcall]
    rcases o with _ | w
    · rfl
    · cases w with
      | num a => rfl
      | bool a => exact absurd rfl (hnb a)
      | str a => rfl
      | cls a => rfl
      | inst a => rfl

/-- C10 witness: a class whose `__eq__(rhs)` returns its argument: when
the argument is `Bool true` the comparison returns it; when the argument
is `Number 5` the unchecked unwrap crashes (null dereference) instead of
raising the `Cannot compare` error. -/
theorem C10_dunder_unchecked_unwrap_witness :
    Equal 5 (some (.inst 0)) (some (.bool true))
        [⟨Class.mk "C"
            [Method.mk "__eq__" ["rhs"]
              (.methodBody (.ret (.var (.byName "rhs"))))] none, []⟩] =
      (.ok true,
        [⟨Class.mk "C"
            [Method.mk "__eq__" ["rhs"]
              (.methodBody (.ret (.var (.byName "rhs"))))] none, []⟩]) ∧
    Equal 5 (some (.inst 0)) (some (.num 5))
        [⟨Class.mk "C"
            [Method.mk "__eq__" ["rhs"]
              (.methodBody (.ret (.var (.byName "rhs"))))] none, []⟩] =
      (.error .crash,
        [⟨Class.mk "C"
            [Method.mk "__eq__" ["rhs"]
              (.methodBody (.ret (.var (.byName "rhs"))))] none, []⟩]) :=
  ⟨((C10_dunder_unchecked_unwrap 4 0 (some (.bool true)) _ _ rfl).1
      (by rfl)).1 true _ rfl,
   ((C10_dunder_unchecked_unwrap 4 0 (some (.num 5)) _ _ rfl).1
      (by rfl)).2 (some (.num 5)) _ rfl (fun b h => by cases h)⟩

end Mython
